import Mathlib

/-!
Verification of the rust-aes-stream adapters (src/lib.rs): a streaming CBC
encryptor (AesWriter) and decryptor (AesReader) built on a block-oriented,
padding-aware cipher-mode engine.  The adapters are embedded from the source;
the external cipher-mode engine (rust-crypto CbcEncryptor/CbcDecryptor with
PkcsPadding, consumed through the narrow interface described in the spec) is
modelled as an explicit streaming state machine over an abstract keyed block
cipher.  Bytes are modelled as natural numbers; all definitions are
executable.
-/

set_option maxHeartbeats 1000000

namespace AesStream

/-- An already-keyed block cipher primitive: block size, single-block
encrypt/decrypt, with decryption inverting encryption on full blocks. -/
structure Cipher where
  bs : Nat
  bs_pos : 0 < bs
  encB : List Nat → List Nat
  decB : List Nat → List Nat
  encB_length : ∀ b : List Nat, b.length = bs → (encB b).length = bs
  decB_length : ∀ b : List Nat, b.length = bs → (decB b).length = bs
  decB_encB : ∀ b : List Nat, b.length = bs → decB (encB b) = b

/-- Byte-wise xor of two byte sequences (used for CBC chaining). -/
def xorB (a b : List Nat) : List Nat := List.zipWith (fun x y => x ^^^ y) a b

@[simp] theorem xorB_length (a b : List Nat) :
    (xorB a b).length = min a.length b.length := by
  simp [xorB]

theorem xorB_xorB (a b : List Nat) (h : a.length = b.length) :
    xorB a (xorB a b) = b := by
  induction a generalizing b with
  | nil => cases b <;> simp_all [xorB]
  | cons x xs ih =>
    cases b with
    | nil => simp at h
    | cons y ys =>
      simp only [xorB, List.zipWith_cons_cons] at *
      rw [← Nat.xor_assoc, Nat.xor_self, Nat.zero_xor, ih ys (by simpa using h)]

/-- CBC encryption of a list of plaintext blocks: each block is xored with the
chaining value and block-encrypted; the ciphertext block becomes the new
chaining value.  Returns the ciphertext blocks and the final chaining value. -/
def cbcEncB (C : Cipher) : List Nat → List (List Nat) → List (List Nat) × List Nat
  | ch, [] => ([], ch)
  | ch, b :: rest =>
    let cb := C.encB (xorB ch b)
    let r := cbcEncB C cb rest
    (cb :: r.1, r.2)

/-- CBC decryption of a list of ciphertext blocks: each block is
block-decrypted and xored with the chaining value; the ciphertext block itself
becomes the new chaining value.  Returns the plaintext blocks and the final
chaining value. -/
def cbcDecB (C : Cipher) : List Nat → List (List Nat) → List (List Nat) × List Nat
  | ch, [] => ([], ch)
  | ch, b :: rest =>
    let pb := xorB ch (C.decB b)
    let r := cbcDecB C b rest
    (pb :: r.1, r.2)

@[simp] theorem cbcEncB_nil (C : Cipher) (ch : List Nat) : cbcEncB C ch [] = ([], ch) := rfl

@[simp] theorem cbcDecB_nil (C : Cipher) (ch : List Nat) : cbcDecB C ch [] = ([], ch) := rfl

theorem cbcEncB_cons (C : Cipher) (ch b : List Nat) (rest : List (List Nat)) :
    cbcEncB C ch (b :: rest) =
      (C.encB (xorB ch b) :: (cbcEncB C (C.encB (xorB ch b)) rest).1,
       (cbcEncB C (C.encB (xorB ch b)) rest).2) := rfl

theorem cbcDecB_cons (C : Cipher) (ch b : List Nat) (rest : List (List Nat)) :
    cbcDecB C ch (b :: rest) =
      (xorB ch (C.decB b) :: (cbcDecB C b rest).1, (cbcDecB C b rest).2) := rfl

theorem cbcEncB_append (C : Cipher) (ch : List Nat) (xs ys : List (List Nat)) :
    cbcEncB C ch (xs ++ ys) =
      ((cbcEncB C ch xs).1 ++ (cbcEncB C (cbcEncB C ch xs).2 ys).1,
       (cbcEncB C (cbcEncB C ch xs).2 ys).2) := by
  induction xs generalizing ch with
  | nil => simp
  | cons b rest ih => simp [cbcEncB_cons, ih]

theorem cbcDecB_append (C : Cipher) (ch : List Nat) (xs ys : List (List Nat)) :
    cbcDecB C ch (xs ++ ys) =
      ((cbcDecB C ch xs).1 ++ (cbcDecB C (cbcDecB C ch xs).2 ys).1,
       (cbcDecB C (cbcDecB C ch xs).2 ys).2) := by
  induction xs generalizing ch with
  | nil => simp
  | cons b rest ih => simp [cbcDecB_cons, ih]

theorem cbcEncB_length (C : Cipher) (ch : List Nat) (xs : List (List Nat)) :
    (cbcEncB C ch xs).1.length = xs.length := by
  induction xs generalizing ch with
  | nil => simp
  | cons b rest ih => simp [cbcEncB_cons, ih]

theorem cbcDecB_length (C : Cipher) (ch : List Nat) (xs : List (List Nat)) :
    (cbcDecB C ch xs).1.length = xs.length := by
  induction xs generalizing ch with
  | nil => simp
  | cons b rest ih => simp [cbcDecB_cons, ih]

theorem cbcEncB_blocks_length (C : Cipher) (ch : List Nat) (xs : List (List Nat))
    (hch : ch.length = C.bs) (hxs : ∀ b ∈ xs, b.length = C.bs) :
    (∀ b ∈ (cbcEncB C ch xs).1, b.length = C.bs) ∧ (cbcEncB C ch xs).2.length = C.bs := by
  induction xs generalizing ch with
  | nil => simpa using hch
  | cons b rest ih =>
    have hb : b.length = C.bs := hxs b (by simp)
    have hcb : (C.encB (xorB ch b)).length = C.bs := by
      apply C.encB_length
      simp [hch, hb]
    have := ih (C.encB (xorB ch b)) hcb (fun x hx => hxs x (by simp [hx]))
    refine ⟨?_, ?_⟩
    · intro x hx
      rw [cbcEncB_cons] at hx
      simp only [List.mem_cons] at hx
      rcases hx with h | h
      · rw [h]; exact hcb
      · exact this.1 x h
    · rw [cbcEncB_cons]
      exact this.2

/-- CBC round trip at block level: decrypting the encryption of a block list
with the same initial chaining value recovers the blocks and ends with the
same final chaining value. -/
theorem cbcDecB_cbcEncB (C : Cipher) (ch : List Nat) (xs : List (List Nat))
    (hch : ch.length = C.bs) (hxs : ∀ b ∈ xs, b.length = C.bs) :
    cbcDecB C ch (cbcEncB C ch xs).1 = (xs, (cbcEncB C ch xs).2) := by
  induction xs generalizing ch with
  | nil => simp
  | cons b rest ih =>
    have hb : b.length = C.bs := hxs b (by simp)
    have hx : (xorB ch b).length = C.bs := by simp [hch, hb]
    have hcb : (C.encB (xorB ch b)).length = C.bs := C.encB_length _ hx
    rw [cbcEncB_cons, cbcDecB_cons, C.decB_encB _ hx, xorB_xorB ch b (by omega)]
    have := ih (C.encB (xorB ch b)) hcb (fun x hxm => hxs x (by simp [hxm]))
    simp [this]

/-- Fuel-driven worker behind fullChunks (structural recursion, so the
definition computes by plain reduction). -/
def fullChunksF (fuel : Nat) (bs : Nat) (l : List Nat) : List (List Nat) :=
  match fuel with
  | 0 => []
  | fuel + 1 =>
    if bs = 0 ∨ l.length < bs then []
    else l.take bs :: fullChunksF fuel bs (l.drop bs)

/-- Splits a byte sequence into its complete blocks of size bs; a trailing
partial block is dropped. -/
def fullChunks (bs : Nat) (l : List Nat) : List (List Nat) :=
  fullChunksF l.length bs l

theorem fullChunksF_succ (fuel bs : Nat) (l : List Nat) :
    fullChunksF (fuel + 1) bs l =
      if bs = 0 ∨ l.length < bs then [] else l.take bs :: fullChunksF fuel bs (l.drop bs) := rfl

/-- The worker is fuel-irrelevant once the fuel covers the list. -/
theorem fullChunksF_fuel (bs : Nat) :
    ∀ (fuel fuel' : Nat) (l : List Nat), l.length ≤ fuel → l.length ≤ fuel' →
      fullChunksF fuel bs l = fullChunksF fuel' bs l := by
  intro fuel
  induction fuel with
  | zero =>
    intro fuel' l h h'
    have hl : l = [] := List.length_eq_zero.mp (by omega)
    subst hl
    cases fuel' with
    | zero => rfl
    | succ f =>
      rw [fullChunksF_succ, if_pos (show bs = 0 ∨ ([] : List Nat).length < bs from by
        rcases Nat.eq_zero_or_pos bs with h0 | h0
        · exact Or.inl h0
        · exact Or.inr (by simpa using h0))]
      rfl
  | succ fuel ih =>
    intro fuel' l h h'
    cases fuel' with
    | zero =>
      have hl : l = [] := List.length_eq_zero.mp (by omega)
      subst hl
      rw [fullChunksF_succ, if_pos (show bs = 0 ∨ ([] : List Nat).length < bs from by
        rcases Nat.eq_zero_or_pos bs with h0 | h0
        · exact Or.inl h0
        · exact Or.inr (by simpa using h0))]
      rfl
    | succ f =>
      rw [fullChunksF_succ, fullChunksF_succ]
      by_cases hc : bs = 0 ∨ l.length < bs
      · rw [if_pos hc, if_pos hc]
      · rw [if_neg hc, if_neg hc]
        push_neg at hc
        congr 1
        apply ih
        · simp only [List.length_drop]
          omega
        · simp only [List.length_drop]
          omega

theorem fullChunks_nil (bs : Nat) : fullChunks bs [] = [] := rfl

theorem fullChunks_short (bs : Nat) (l : List Nat) (h : l.length < bs) :
    fullChunks bs l = [] := by
  rw [fullChunks]
  generalize hf : l.length = f at h ⊢
  cases f with
  | zero => rfl
  | succ n =>
    rw [fullChunksF_succ, if_pos (Or.inr (by omega))]

theorem fullChunks_step (bs : Nat) (l : List Nat) (hbs : 0 < bs) (h : bs ≤ l.length) :
    fullChunks bs l = l.take bs :: fullChunks bs (l.drop bs) := by
  rw [fullChunks, fullChunks]
  obtain ⟨f, hf⟩ : ∃ f, l.length = f + 1 := ⟨l.length - 1, by omega⟩
  rw [hf, fullChunksF_succ, if_neg (by omega)]
  congr 1
  apply fullChunksF_fuel
  · simp only [List.length_drop]
    omega
  · exact le_rfl

theorem fullChunks_mem_length (bs : Nat) (l : List Nat) :
    ∀ b ∈ fullChunks bs l, b.length = bs := by
  by_cases hbs : bs = 0
  · subst hbs
    intro b hb
    exfalso
    revert hb
    rw [fullChunks]
    generalize l.length = f
    cases f with
    | zero => simp [fullChunksF]
    | succ n =>
      rw [fullChunksF_succ, if_pos (Or.inl rfl)]
      simp
  · have hpos : 0 < bs := Nat.pos_of_ne_zero hbs
    suffices H : ∀ (n : Nat) (l : List Nat), l.length ≤ n → ∀ b ∈ fullChunks bs l, b.length = bs from
      H l.length l le_rfl
    intro n
    induction n with
    | zero =>
      intro l hl
      have : l = [] := List.length_eq_zero.mp (by omega)
      subst this
      rw [fullChunks_nil]
      simp
    | succ n ih =>
      intro l hl
      by_cases h : l.length < bs
      · rw [fullChunks_short bs l h]
        simp
      · rw [fullChunks_step bs l hpos (Nat.not_lt.mp h)]
        intro b hb
        rcases List.mem_cons.mp hb with h1 | h1
        · rw [h1]
          simp
          omega
        · exact ih (l.drop bs) (by simp; omega) b h1

theorem join_length_uniform (bs : Nat) (xs : List (List Nat))
    (h : ∀ b ∈ xs, b.length = bs) : xs.flatten.length = bs * xs.length := by
  induction xs with
  | nil => simp
  | cons b rest ih =>
    simp only [List.flatten_cons, List.length_append, List.length_cons]
    rw [h b (by simp), ih (fun x hx => h x (by simp [hx]))]
    ring

theorem join_take_uniform (bs : Nat) (xs : List (List Nat)) (m : Nat)
    (h : ∀ b ∈ xs, b.length = bs) :
    xs.flatten.take (bs * m) = (xs.take m).flatten := by
  induction xs generalizing m with
  | nil => simp
  | cons b rest ih =>
    cases m with
    | zero => simp
    | succ m =>
      have hb : b.length = bs := h b (by simp)
      have hmul : bs * (m + 1) = bs * m + bs := by ring
      simp only [List.flatten_cons, List.take_succ_cons]
      rw [List.take_append_eq_append_take, List.take_of_length_le (by omega),
        show bs * (m + 1) - b.length = bs * m by omega,
        ih m (fun x hx => h x (by simp [hx]))]

theorem join_drop_uniform (bs : Nat) (xs : List (List Nat)) (m : Nat)
    (h : ∀ b ∈ xs, b.length = bs) :
    xs.flatten.drop (bs * m) = (xs.drop m).flatten := by
  induction xs generalizing m with
  | nil => simp
  | cons b rest ih =>
    cases m with
    | zero => simp
    | succ m =>
      have hb : b.length = bs := h b (by simp)
      have hmul : bs * (m + 1) = bs * m + bs := by ring
      simp only [List.flatten_cons, List.drop_succ_cons]
      rw [List.drop_append_eq_append_drop, List.drop_of_length_le (by omega),
        show bs * (m + 1) - b.length = bs * m by omega,
        ih m (fun x hx => h x (by simp [hx]))]
      simp

theorem fullChunks_join_uniform (bs : Nat) (hbs : 0 < bs) (xs : List (List Nat))
    (t : List Nat) (h : ∀ b ∈ xs, b.length = bs) (ht : t.length < bs) :
    fullChunks bs (xs.flatten ++ t) = xs := by
  induction xs with
  | nil => simp [fullChunks_short bs t ht]
  | cons b rest ih =>
    have hb : b.length = bs := h b (by simp)
    have hlen : bs ≤ (((b :: rest).flatten) ++ t).length := by
      simp only [List.flatten_cons, List.append_assoc, List.length_append, hb]
      omega
    rw [fullChunks_step bs _ hbs hlen]
    simp only [List.flatten_cons, List.append_assoc]
    rw [List.take_append_of_le_length (by omega), List.drop_append_of_le_length (by omega),
      show b.take bs = b from by rw [← hb, List.take_length],
      show b.drop bs = [] from by rw [← hb, List.drop_length]]
    simpa using ih (fun x hx => h x (by simp [hx]))

theorem fullChunks_count (bs : Nat) (hbs : 0 < bs) (l : List Nat) :
    (fullChunks bs l).length = l.length / bs := by
  suffices H : ∀ (n : Nat) (l : List Nat), l.length ≤ n →
      (fullChunks bs l).length = l.length / bs from H l.length l le_rfl
  intro n
  induction n with
  | zero =>
    intro l hl
    have : l = [] := List.length_eq_zero.mp (by omega)
    subst this
    simp [fullChunks_nil]
  | succ n ih =>
    intro l hl
    by_cases h : l.length < bs
    · rw [fullChunks_short bs l h]
      simp [Nat.div_eq_of_lt h]
    · rw [fullChunks_step bs l hbs (Nat.not_lt.mp h)]
      simp only [List.length_cons, ih (l.drop bs) (by simp; omega), List.length_drop]
      rw [Nat.div_eq_sub_div hbs (Nat.not_lt.mp h)]

theorem flatten_fullChunks (bs : Nat) (hbs : 0 < bs) (l : List Nat) :
    (fullChunks bs l).flatten = l.take (bs * (l.length / bs)) := by
  suffices H : ∀ (n : Nat) (l : List Nat), l.length ≤ n →
      (fullChunks bs l).flatten = l.take (bs * (l.length / bs)) from H l.length l le_rfl
  intro n
  induction n with
  | zero =>
    intro l hl
    have : l = [] := List.length_eq_zero.mp (by omega)
    subst this
    simp [fullChunks_nil]
  | succ n ih =>
    intro l hl
    by_cases h : l.length < bs
    · rw [fullChunks_short bs l h]
      simp [Nat.div_eq_of_lt h]
    · rw [fullChunks_step bs l hbs (Nat.not_lt.mp h)]
      simp only [List.flatten_cons, ih (l.drop bs) (by simp; omega), List.length_drop]
      rw [← List.take_add]
      congr 1
      rw [Nat.div_eq_sub_div hbs (Nat.not_lt.mp h), Nat.mul_add, Nat.mul_one]
      omega

/-- For a byte sequence whose length is exactly m blocks, fullChunks recovers
it exactly. -/
theorem flatten_fullChunks_exact (bs : Nat) (hbs : 0 < bs) (l : List Nat) (m : Nat)
    (h : l.length = bs * m) : (fullChunks bs l).flatten = l ∧ (fullChunks bs l).length = m := by
  constructor
  · rw [flatten_fullChunks bs hbs l, h, Nat.mul_div_cancel_left m hbs, ← h, List.take_length]
  · rw [fullChunks_count bs hbs l, h, Nat.mul_div_cancel_left m hbs]

/-- PKCS block padding: appends r copies of the byte r, where r is the
distance to the next block boundary (a full block when already aligned). -/
def padMsg (bs : Nat) (p : List Nat) : List Nat :=
  p ++ List.replicate (bs - p.length % bs) (bs - p.length % bs)

/-- PKCS padding validation and removal, applied to the tail of the decrypted
byte sequence: the last byte v must be between 1 and bs and the trailing v
bytes must all equal v; those bytes are then removed. -/
def unpadTail (bs : Nat) (P : List Nat) : Option (List Nat) :=
  let v := P.getLast?.getD 0
  if 1 ≤ v ∧ v ≤ bs ∧ (P.drop (P.length - v)).all (fun x => x == v) then
    some (P.take (P.length - v))
  else none

theorem getLast?_replicate_pos (n a : Nat) (h : 1 ≤ n) :
    (List.replicate n a).getLast? = some a := by
  cases n with
  | zero => omega
  | succ m =>
    rw [List.replicate_succ', List.getLast?_append]
    simp

theorem padMsg_length (bs : Nat) (hbs : 0 < bs) (p : List Nat) :
    (padMsg bs p).length = bs * (p.length / bs + 1) := by
  have h1 := Nat.div_add_mod p.length bs
  have h2 : p.length % bs < bs := Nat.mod_lt _ hbs
  simp only [padMsg, List.length_append, List.length_replicate]
  rw [Nat.mul_add, Nat.mul_one]
  omega

theorem padMsg_pos (bs : Nat) (hbs : 0 < bs) (p : List Nat) :
    p.length < (padMsg bs p).length := by
  have h2 : p.length % bs < bs := Nat.mod_lt _ hbs
  simp only [padMsg, List.length_append, List.length_replicate]
  omega

theorem unpad_padMsg (bs : Nat) (hbs : 0 < bs) (p : List Nat) :
    unpadTail bs (padMsg bs p) = some p := by
  have h2 : p.length % bs < bs := Nat.mod_lt _ hbs
  have hr1 : 1 ≤ bs - p.length % bs := by omega
  have hlast : (padMsg bs p).getLast? = some (bs - p.length % bs) := by
    rw [padMsg, List.getLast?_append, getLast?_replicate_pos _ _ hr1]
    simp
  have hlen : (padMsg bs p).length = p.length + (bs - p.length % bs) := by
    simp [padMsg]
  rw [unpadTail]
  simp only [hlast, Option.getD_some, hlen, Nat.add_sub_cancel]
  have hdrop : (padMsg bs p).drop p.length = List.replicate (bs - p.length % bs) (bs - p.length % bs) := by
    rw [padMsg, List.drop_left]
  have htake : (padMsg bs p).take p.length = p := by
    rw [padMsg, List.take_left]
  rw [hdrop, htake]
  have hall : (List.replicate (bs - p.length % bs) (bs - p.length % bs)).all
      (fun x => x == (bs - p.length % bs)) = true := by
    simp [List.all_eq_true]
  simp [hr1, hall]

/-- Stripping the padding only looks at the final block, so it commutes with
dropping a block-aligned strict prefix of the padded data. -/
theorem unpadTail_drop (bs : Nat) (hbs : 0 < bs) (P : List Nat) (q : Nat)
    (hq : q + bs ≤ P.length) :
    unpadTail bs (P.drop q) = (unpadTail bs P).map (fun l => l.drop q) := by
  have hne : P.drop q ≠ [] := by
    intro h
    have := congrArg List.length h
    simp at this
    omega
  have hlast : (P.drop q).getLast? = P.getLast? := by
    have h0 : P.getLast? = ((P.drop q).getLast?).or ((P.take q).getLast?) := by
      conv_lhs => rw [← List.take_append_drop q P]
      rw [List.getLast?_append]
    cases hx : (P.drop q).getLast? with
    | none => exact absurd (List.getLast?_eq_none_iff.mp hx) hne
    | some a =>
      rw [h0, hx]
      simp
  rw [unpadTail, unpadTail, hlast]
  cases hP : P.getLast? with
  | none =>
    rw [List.getLast?_eq_none_iff] at hP
    subst hP
    simp at hne
  | some v =>
    simp only [Option.getD_some]
    by_cases hv : 1 ≤ v ∧ v ≤ bs
    · obtain ⟨hv1, hv2⟩ := hv
      have hvP : v ≤ P.length - q := by omega
      have hdd : (P.drop q).drop ((P.drop q).length - v) = P.drop (P.length - v) := by
        rw [List.drop_drop, List.length_drop]
        congr 1
        omega
      have hdt : (P.drop q).take ((P.drop q).length - v) = (P.take (P.length - v)).drop q := by
        rw [List.length_drop, List.drop_take]
        congr 1
        omega
      rw [hdd, hdt]
      by_cases hall : (P.drop (P.length - v)).all (fun x => x == v) = true
      · simp [hv1, hv2, hall]
      · simp [hv1, hv2, hall]
    · have hn1 : ¬(1 ≤ v ∧ v ≤ bs ∧ (((P.drop q).drop ((P.drop q).length - v)).all (fun x => x == v)) = true) := by
        tauto
      have hn2 : ¬(1 ≤ v ∧ v ≤ bs ∧ ((P.drop (P.length - v)).all (fun x => x == v)) = true) := by
        tauto
      rw [if_neg hn1, if_neg hn2]
      simp

/-- Result reported by a cipher-mode engine call: overflow means the caller's
output buffer was filled with engine data left over; underflow means all input
was consumed and the engine needs more to continue. -/
inductive BufRes where
  | overflow : BufRes
  | underflow : BufRes
deriving DecidableEq

/-- Diagnostics produced by the cipher-mode engine during final-mode
decryption: the ciphertext is not a whole number of blocks, or the padding of
the last block does not validate. -/
inductive EngineErr where
  | invalidLength : EngineErr
  | invalidPadding : EngineErr
deriving DecidableEq

/-- Errors surfaced by the adapters: a codec failure wrapping the engine
diagnostic, the closed-writer error, the unexpected-eof error of read_exact,
a negative seek target, and fuel exhaustion of the embedding (proved
unreachable at every call site used by the theorems). -/
inductive RwErr where
  | codec : EngineErr → RwErr
  | closed : RwErr
  | eofErr : RwErr
  | seekErr : RwErr
  | fuelOut : RwErr
deriving DecidableEq

/-- State of the CBC cipher-mode engine (modelled from the spec: chaining
value, internally buffered input not yet processed, produced output not yet
handed to the caller, and whether finalization has completed). -/
structure EncState where
  chain : List Nat
  ibuf : List Nat
  obuf : List Nat
  finished : Bool
deriving DecidableEq

/-- State of the CBC decryption engine.  In non-final mode the engine holds
back the most recent complete block (it can only be emitted once a byte
beyond it proves that it is not the final, padded block). -/
structure DecState where
  chain : List Nat
  ibuf : List Nat
  obuf : List Nat
  finished : Bool
deriving DecidableEq

/-- One call to the encryption engine: delivers pending output first, then
processes as many complete input blocks as fit in the caller's buffer of size
cap; in final mode the input is padded and processed entirely.  Returns the
emitted bytes, the number of input bytes consumed, the new engine state and
the buffer result. -/
def encStep (C : Cipher) (st : EncState) (inp : List Nat) (cap : Nat) (final : Bool) :
    List Nat × Nat × EncState × BufRes :=
  if st.finished then
    (st.obuf.take cap, 0, { st with obuf := st.obuf.drop cap },
     if st.obuf.length ≤ cap then .underflow else .overflow)
  else if cap < st.obuf.length then
    (st.obuf.take cap, 0, { st with obuf := st.obuf.drop cap }, .overflow)
  else
    let cap1 := cap - st.obuf.length
    let avail := st.ibuf ++ inp
    if final then
      let r := cbcEncB C st.chain (fullChunks C.bs (padMsg C.bs avail))
      let total := st.obuf ++ r.1.flatten
      if total.length ≤ cap then (total, inp.length, ⟨r.2, [], [], true⟩, .underflow)
      else (total.take cap, inp.length, ⟨r.2, [], total.drop cap, true⟩, .overflow)
    else
      let k := avail.length / C.bs
      let m := min k ((cap1 + C.bs - 1) / C.bs)
      let r := cbcEncB C st.chain (fullChunks C.bs (avail.take (m * C.bs)))
      let out := r.1.flatten
      if m = k ∧ out.length ≤ cap1 then
        (st.obuf ++ out, inp.length, ⟨r.2, avail.drop (m * C.bs), [], false⟩, .underflow)
      else
        (st.obuf ++ out.take cap1, m * C.bs - st.ibuf.length,
         ⟨r.2, st.ibuf.drop (m * C.bs), out.drop cap1, false⟩, .overflow)

/-- One call to the decryption engine.  Non-final mode processes complete
blocks subject to the hold-back rule (a block is processed only when a byte
beyond it has been seen); final mode requires a whole number of blocks,
decrypts everything and strips the padding, failing on invalid padding. -/
def decStep (C : Cipher) (st : DecState) (inp : List Nat) (cap : Nat) (final : Bool) :
    Except EngineErr (List Nat × Nat × DecState × BufRes) :=
  if st.finished then
    .ok (st.obuf.take cap, 0, { st with obuf := st.obuf.drop cap },
         if st.obuf.length ≤ cap then .underflow else .overflow)
  else if cap < st.obuf.length then
    .ok (st.obuf.take cap, 0, { st with obuf := st.obuf.drop cap }, .overflow)
  else
    let cap1 := cap - st.obuf.length
    let avail := st.ibuf ++ inp
    let n := avail.length
    if final then
      if n % C.bs ≠ 0 ∨ n = 0 then .error .invalidLength
      else
        let r := cbcDecB C st.chain (fullChunks C.bs avail)
        match unpadTail C.bs r.1.flatten with
        | none => .error .invalidPadding
        | some stripped =>
          let total := st.obuf ++ stripped
          if total.length ≤ cap then
            .ok (total, inp.length, ⟨r.2, [], [], true⟩, .underflow)
          else
            .ok (total.take cap, inp.length, ⟨r.2, [], total.drop cap, true⟩, .overflow)
    else
      let k := if n = 0 then 0 else (n - 1) / C.bs
      let m := min k ((cap1 + C.bs - 1) / C.bs)
      let r := cbcDecB C st.chain (fullChunks C.bs (avail.take (m * C.bs)))
      let plain := r.1.flatten
      if m = k ∧ plain.length ≤ cap1 then
        .ok (st.obuf ++ plain, inp.length, ⟨r.2, avail.drop (m * C.bs), [], false⟩, .underflow)
      else
        .ok (st.obuf ++ plain.take cap1, m * C.bs - st.ibuf.length,
             ⟨r.2, st.ibuf.drop (m * C.bs), plain.drop cap1, false⟩, .overflow)

/-- The BUFFER_SIZE constant of the source. -/
def bufferSize : Nat := 8192

/-- Outcome of AesWriter::encrypt_write: normal return with the ciphertext
written to the sink, the panic branch (BufferOverflow while eof), or the
failing assert_eq of read_buf.remaining() == 0 after the loop. -/
inductive EncOut where
  | ok : List Nat → EncState → EncOut
  | panicked : EncOut
  | assertFailed : EncOut
  | fuelOut : EncOut
deriving DecidableEq

/-- The loop of AesWriter::encrypt_write: repeatedly calls the engine with an
8192-byte output buffer, writing every emitted byte to the sink, until the
engine reports underflow; BufferOverflow together with eof is the panic
branch.  After the loop the source asserts that all input was consumed. -/
def encLoop (C : Cipher) (fuel : Nat) (enc : EncState) (inp : List Nat) (acc : List Nat)
    (eof : Bool) : EncOut :=
  match fuel with
  | 0 => .fuelOut
  | fuel + 1 =>
    match encStep C enc inp bufferSize eof with
    | (out, cons, enc1, res) =>
      match res with
      | .underflow => if inp.drop cons = [] then .ok (acc ++ out) enc1 else .assertFailed
      | .overflow => if eof then .panicked else encLoop C fuel enc1 (inp.drop cons) (acc ++ out) eof

/-- AesWriter::encrypt_write embedded (fuel is one more than the bytes in
flight, which the loop lemmas prove sufficient). -/
def encryptWrite (C : Cipher) (enc : EncState) (buf : List Nat) (eof : Bool) : EncOut :=
  encLoop C (buf.length + enc.ibuf.length + enc.obuf.length + 1) enc buf [] eof

/-- State of an AesWriter: bytes written to the underlying sink so far, the
number of sink flushes performed, the engine state, and the closed flag. -/
structure WriterSt where
  sink : List Nat
  flushes : Nat
  enc : EncState
  closed : Bool
deriving DecidableEq

/-- AesWriter::new. -/
def writerNew (iv : List Nat) : WriterSt := ⟨[], 0, ⟨iv, [], [], false⟩, false⟩

/-- Errors surfaced by AesWriter operations (the engine-failure case stands
for the panic and assert branches, proved unreachable). -/
inductive WErr where
  | closed : WErr
  | engineFailure : WErr
deriving DecidableEq

def writerEncryptWrite (C : Cipher) (w : WriterSt) (buf : List Nat) (eof : Bool) :
    Except WErr (Nat × WriterSt) :=
  match encryptWrite C w.enc buf eof with
  | .ok out enc1 => .ok (buf.length, { w with sink := w.sink ++ out, enc := enc1 })
  | _ => .error .engineFailure

/-- Write for AesWriter: rejected with the closed error once flushed;
otherwise encrypt_write in non-final mode. -/
def writerWrite (C : Cipher) (w : WriterSt) (buf : List Nat) : Except WErr (Nat × WriterSt) :=
  if w.closed then .error .closed
  else writerEncryptWrite C w buf false

/-- Flush for AesWriter: a no-op once closed; otherwise a final-mode
encrypt_write with empty input, setting the closed flag and flushing the
underlying sink. -/
def writerFlush (C : Cipher) (w : WriterSt) : Except WErr WriterSt :=
  if w.closed then .ok w
  else
    match writerEncryptWrite C w [] true with
    | .ok r => .ok { r.2 with closed := true, flushes := r.2.flushes + 1 }
    | .error e => .error e

/-- A sequence of write calls. -/
def runWrites (C : Cipher) (w : WriterSt) (chunks : List (List Nat)) :
    Except WErr WriterSt :=
  match chunks with
  | [] => .ok w
  | c :: rest =>
    match writerWrite C w c with
    | .ok r => runWrites C r.2 rest
    | .error e => .error e

/-- A seekable byte source (the underlying reader R): its full contents and
the current cursor. -/
structure Src where
  data : List Nat
  pos : Nat
deriving DecidableEq

/-- The bytes that remain to be read from the source. -/
def Src.rem (s : Src) : List Nat := s.data.drop s.pos

/-- One Read::read call on the source with an 8192-byte buffer, as performed
by AesReader::fill_buf. -/
def fillBufS (s : Src) : List Nat × Src :=
  (s.rem.take bufferSize, ⟨s.data, s.pos + min bufferSize s.rem.length⟩)

/-- State of an AesReader: underlying source, decryption engine, the stored
IV (used when seeking into the first block), the internal pending buffer of
ciphertext, and the eof flag. -/
structure ReaderSt where
  src : Src
  dec : DecState
  iv : List Nat
  buffer : List Nat
  eof : Bool
deriving DecidableEq

/-- AesReader::new over a source holding the byte sequence c. -/
def readerNew (c : List Nat) (iv : List Nat) : ReaderSt :=
  ⟨⟨c, 0⟩, ⟨iv, [], [], false⟩, iv, [], false⟩

/-- AesReader::into_inner: returns the underlying reader, dropping the
pending buffer and all other adapter state. -/
def readerIntoInner (st : ReaderSt) : Src := st.src

/-- The while loop of AesReader::read_decrypt: fill from the source (setting
eof on a zero-length read), decrypt the pending buffer into the remaining
space of the caller's buffer, drain the consumed bytes and append the newly
read chunk; repeat while nothing has been written and eof is unseen.
Returns dec_len together with the bytes written by the loop and the final
reader components. -/
def readLoop (C : Cipher) (fuel : Nat) (dec : DecState) (buffer : List Nat) (src : Src)
    (w : Nat) (cap : Nat) : Except RwErr (Nat × List Nat × DecState × List Nat × Src × Bool) :=
  match fuel with
  | 0 => .error .fuelOut
  | fuel + 1 =>
    let f := fillBufS src
    let chunk := f.1
    let src1 := f.2
    let eof1 := chunk.isEmpty
    match decStep C dec buffer cap eof1 with
    | .error e => .error (.codec e)
    | .ok (out2, cons2, dec2, _res) =>
      let decLen := w + out2.length
      let buffer2 := buffer.drop cons2 ++ chunk
      if decLen = 0 ∧ eof1 = false then
        readLoop C fuel dec2 buffer2 src1 w cap
      else
        .ok (decLen, out2, dec2, buffer2, src1, eof1)

/-- AesReader::read_decrypt (hence AesReader::read) with a caller buffer of
size B: a speculative decrypt of the pending buffer (final-mode exactly when
eof was already observed), an immediate return on overflow or on
underflow-at-eof, otherwise an initial fill when the pending buffer is empty
followed by the fill-and-decrypt loop.  Returns the reported count, the bytes
written into the caller's buffer, and the new reader state. -/
def readDecrypt (C : Cipher) (st : ReaderSt) (B : Nat) :
    Except RwErr (Nat × List Nat × ReaderSt) :=
  match decStep C st.dec st.buffer B st.eof with
  | .error e => .error (.codec e)
  | .ok (out1, cons1, dec1, res1) =>
    let buffer1 := st.buffer.drop cons1
    match res1 with
    | .overflow => .ok (B, out1, { st with dec := dec1, buffer := buffer1 })
    | .underflow =>
      if st.eof then .ok (out1.length, out1, { st with dec := dec1, buffer := buffer1 })
      else
        let t := if buffer1.isEmpty then
            ((fillBufS st.src).1, (fillBufS st.src).2, (fillBufS st.src).1.isEmpty)
          else (buffer1, st.src, false)
        if t.2.2 then
          .ok (0, out1, { st with src := t.2.1, dec := dec1, buffer := t.1, eof := t.2.2 })
        else
          match readLoop C (t.2.1.rem.length + 1) dec1 t.1 t.2.1 out1.length (B - out1.length) with
          | .error e => .error e
          | .ok (decLen, out2, dec3, buffer3, src3, eof3) =>
            .ok (decLen, out1 ++ out2,
                 { st with src := src3, dec := dec3, buffer := buffer3, eof := eof3 })

/-- Repeatedly calling AesReader::read with a buffer of size B until it
reports 0 bytes, concatenating the delivered bytes (reading the stream to
exhaustion). -/
def readToEnd (C : Cipher) (fuel : Nat) (st : ReaderSt) (B : Nat) : Except RwErr (List Nat) :=
  match fuel with
  | 0 => .error .fuelOut
  | fuel + 1 =>
    match readDecrypt C st B with
    | .error e => .error e
    | .ok (n, out, st1) =>
      if n = 0 then .ok []
      else
        match readToEnd C fuel st1 B with
        | .error e => .error e
        | .ok rest => .ok (out.take n ++ rest)

/-- Read::read_exact on the AesReader: reads until the requested n bytes are
obtained, failing with the unexpected-eof error if a read returns 0 early. -/
def readExact (C : Cipher) (fuel : Nat) (st : ReaderSt) (n : Nat) :
    Except RwErr (List Nat × ReaderSt) :=
  match fuel with
  | 0 => .error .fuelOut
  | fuel + 1 =>
    if n = 0 then .ok ([], st)
    else
      match readDecrypt C st n with
      | .error e => .error e
      | .ok (k, out, st1) =>
        if k = 0 then .error .eofErr
        else
          match readExact C fuel st1 (n - k) with
          | .error e => .error e
          | .ok (rest, st2) => .ok (out.take k ++ rest, st2)

/-- std::io::SeekFrom. -/
inductive SeekFrom where
  | start : Nat → SeekFrom
  | current : Int → SeekFrom
  | fromEnd : Int → SeekFrom

/-- Seek on the underlying source (cursor semantics; a negative resolved
position is an error). -/
def srcSeek (s : Src) (sf : SeekFrom) : Except RwErr (Nat × Src) :=
  match sf with
  | .start p => .ok (p, ⟨s.data, p⟩)
  | .current d =>
    let t : Int := (s.pos : Int) + d
    if t < 0 then .error .seekErr else .ok (t.toNat, ⟨s.data, t.toNat⟩)
  | .fromEnd d =>
    let t : Int := (s.data.length : Int) + d
    if t < 0 then .error .seekErr else .ok (t.toNat, ⟨s.data, t.toNat⟩)

/-- CbcDecryptor::reset: reinitializes the chaining value and clears all
buffered engine state. -/
def resetDec (newIv : List Nat) : DecState := ⟨newIv, [], [], false⟩

/-- The SeekFrom::Start arm of Seek for AesReader: compute block number and
offset; for block 0 seek the source to 0 and reset the engine to the stored
IV, otherwise seek to the previous block, read exactly one block from the
source and reset the engine to it; then clear the pending buffer and the eof
flag, skip block_offset plaintext bytes via read_exact, and return the
offset. -/
def seekStart (C : Cipher) (st : ReaderSt) (offset : Nat) : Except RwErr (Nat × ReaderSt) :=
  let blockNum := offset / C.bs
  let blockOffset := offset % C.bs
  let st1r : Except RwErr ReaderSt :=
    if blockNum = 0 then
      match srcSeek st.src (.start 0) with
      | .error e => .error e
      | .ok r => .ok { st with src := r.2, dec := resetDec st.iv }
    else
      match srcSeek st.src (.start ((blockNum - 1) * C.bs)) with
      | .error e => .error e
      | .ok r =>
        if r.2.rem.length < C.bs then .error .eofErr
        else .ok { st with src := ⟨r.2.data, r.2.pos + C.bs⟩,
                           dec := resetDec (r.2.rem.take C.bs) }
  match st1r with
  | .error e => .error e
  | .ok st1 =>
    let st2 := { st1 with buffer := [], eof := false }
    match readExact C (blockOffset + 1) st2 blockOffset with
    | .error e => .error e
    | .ok r => .ok (offset, r.2)

/-- Seek for AesReader: SeekFrom::Start is handled directly; Current and End
are resolved to an absolute source offset by seeking the underlying source,
then delegated to the Start path. -/
def readerSeek (C : Cipher) (st : ReaderSt) (sf : SeekFrom) : Except RwErr (Nat × ReaderSt) :=
  match sf with
  | .start offset => seekStart C st offset
  | .current d =>
    match srcSeek st.src (.current d) with
    | .error e => .error e
    | .ok r => seekStart C { st with src := r.2 } r.1
  | .fromEnd d =>
    match srcSeek st.src (.fromEnd d) with
    | .error e => .error e
    | .ok r => seekStart C { st with src := r.2 } r.1

theorem fullChunks_take_div (bs : Nat) (hbs : 0 < bs) (l : List Nat) :
    fullChunks bs (l.take (bs * (l.length / bs))) = fullChunks bs l := by
  have h1 : l.take (bs * (l.length / bs)) = (fullChunks bs l).flatten := by
    rw [flatten_fullChunks bs hbs l]
  rw [h1]
  have h2 := fullChunks_join_uniform bs hbs (fullChunks bs l) [] (fullChunks_mem_length bs l)
    (by simpa using hbs)
  simpa using h2

theorem fullChunks_split (bs : Nat) (hbs : 0 < bs) (l : List Nat) (j : Nat)
    (hj : bs * j ≤ l.length) :
    fullChunks bs l = fullChunks bs (l.take (bs * j)) ++ fullChunks bs (l.drop (bs * j)) := by
  induction j generalizing l with
  | zero => simp [fullChunks_nil]
  | succ j ih =>
    have hmul : bs * (j + 1) = bs + bs * j := by ring
    have hbsl : bs ≤ l.length := by omega
    rw [fullChunks_step bs l hbs hbsl]
    have htl : (l.take (bs * (j + 1))).length = bs * (j + 1) := by
      simp
      omega
    rw [fullChunks_step bs (l.take (bs * (j + 1))) hbs (by omega)]
    have e0 : (l.take (bs * (j + 1))).take bs = l.take bs := by
      rw [List.take_take, min_eq_left (by omega)]
    have e1 : (l.take (bs * (j + 1))).drop bs = (l.drop bs).take (bs * j) := by
      rw [List.drop_take]
      congr 1
      omega
    have e2 : l.drop (bs * (j + 1)) = (l.drop bs).drop (bs * j) := by
      rw [List.drop_drop]
      congr 1
    rw [e0, e1, e2, List.cons_append]
    congr 1
    exact ih (l.drop bs) (by simp; omega)

theorem encChain_length (C : Cipher) (ch : List Nat) (hch : ch.length = C.bs)
    (bl : List (List Nat)) (hbl : ∀ b ∈ bl, b.length = C.bs) :
    (cbcEncB C ch bl).2.length = C.bs :=
  (cbcEncB_blocks_length C ch bl hch hbl).2

theorem encFlatten_length (C : Cipher) (ch : List Nat) (hch : ch.length = C.bs)
    (bl : List (List Nat)) (hbl : ∀ b ∈ bl, b.length = C.bs) :
    (cbcEncB C ch bl).1.flatten.length = C.bs * bl.length := by
  rw [join_length_uniform C.bs _ (cbcEncB_blocks_length C ch bl hch hbl).1, cbcEncB_length]

theorem le_ceil_mul (bs c : Nat) (hbs : 0 < bs) : c ≤ ((c + bs - 1) / bs) * bs := by
  rcases Nat.eq_zero_or_pos c with hc | hc
  · simp [hc]
  · have hc1 : c + bs - 1 = (c - 1) + bs := by omega
    rw [hc1, Nat.add_div_right _ hbs, Nat.add_mul, Nat.one_mul]
    have h1 := Nat.div_add_mod (c - 1) bs
    have h2 : (c - 1) % bs < bs := Nat.mod_lt _ hbs
    have h3 : (c - 1) / bs * bs = bs * ((c - 1) / bs) := Nat.mul_comm _ _
    omega

theorem mul_div_le_self_left (bs n : Nat) : bs * (n / bs) ≤ n := by
  rw [Nat.mul_comm]
  exact Nat.div_mul_le_self n bs

theorem cat4 (a p f : List Nat) (n : Nat) : a ++ p.take n ++ p.drop n ++ f = a ++ p ++ f := by
  simp only [List.append_assoc]
  rw [← List.append_assoc (p.take n), List.take_append_drop]

theorem cat5 (a b p f : List Nat) (n : Nat) :
    a ++ (b ++ p.take n) ++ p.drop n ++ f = a ++ b ++ (p ++ f) := by
  simp only [List.append_assoc]
  rw [← List.append_assoc (p.take n), List.take_append_drop]

theorem fullChunks_split_mul (bs : Nat) (hbs : 0 < bs) (l : List Nat) (j : Nat)
    (hj : j * bs ≤ l.length) :
    fullChunks bs l = fullChunks bs (l.take (j * bs)) ++ fullChunks bs (l.drop (j * bs)) := by
  rw [Nat.mul_comm j bs] at hj ⊢
  exact fullChunks_split bs hbs l j hj

theorem take_mul_length (bs : Nat) (l : List Nat) (j : Nat) (hj : j * bs ≤ l.length) :
    (l.take (j * bs)).length = j * bs := by
  simp only [List.length_take]
  omega

/-- Decomposition of CBC encryption of a byte stream at a block boundary. -/
theorem cbcEnc_take_drop (C : Cipher) (ch : List Nat) (A : List Nat) (j : Nat)
    (hj : j * C.bs ≤ A.length) :
    (cbcEncB C ch (fullChunks C.bs A)).1.flatten =
      (cbcEncB C ch (fullChunks C.bs (A.take (j * C.bs)))).1.flatten ++
      (cbcEncB C (cbcEncB C ch (fullChunks C.bs (A.take (j * C.bs)))).2
        (fullChunks C.bs (A.drop (j * C.bs)))).1.flatten ∧
    (cbcEncB C ch (fullChunks C.bs A)).2 =
      (cbcEncB C (cbcEncB C ch (fullChunks C.bs (A.take (j * C.bs)))).2
        (fullChunks C.bs (A.drop (j * C.bs)))).2 := by
  rw [fullChunks_split_mul C.bs C.bs_pos A j hj, cbcEncB_append]
  simp

/-- The encryption of j complete blocks has length j * bs. -/
theorem encTake_flatten_length (C : Cipher) (ch : List Nat) (hch : ch.length = C.bs)
    (A : List Nat) (j : Nat) (hj : j * C.bs ≤ A.length) :
    (cbcEncB C ch (fullChunks C.bs (A.take (j * C.bs)))).1.flatten.length = j * C.bs := by
  rw [encFlatten_length C ch hch _ (fullChunks_mem_length _ _),
    fullChunks_count C.bs C.bs_pos, take_mul_length C.bs A j hj,
    Nat.mul_div_cancel _ C.bs_pos, Nat.mul_comm]

/-- Dropping the remaining complete blocks after j processed blocks reaches
the overall block boundary. -/
theorem resid_drop_drop (bs : Nat) (hbs : 0 < bs) (A : List Nat) (j : Nat)
    (hj : j ≤ A.length / bs) :
    (A.drop (j * bs)).drop (bs * ((A.drop (j * bs)).length / bs)) =
      A.drop (bs * (A.length / bs)) := by
  rw [List.drop_drop, List.length_drop]
  congr 1
  have h1 : j * bs ≤ A.length := by
    calc j * bs ≤ (A.length / bs) * bs := Nat.mul_le_mul_right _ hj
    _ ≤ A.length := Nat.div_mul_le_self _ _
  have h2 : (A.length - j * bs) / bs = A.length / bs - j := by
    rw [Nat.mul_comm j bs] at h1 ⊢
    exact Nat.sub_mul_div A.length bs j h1
  rw [h2, Nat.mul_sub]
  have h3 : bs * j ≤ bs * (A.length / bs) := Nat.mul_le_mul_left _ hj
  rw [Nat.mul_comm bs j] at h3 ⊢
  omega

/-- And the block count decomposes accordingly. -/
theorem div_drop_blocks (bs : Nat) (hbs : 0 < bs) (A : List Nat) (j : Nat)
    (hj : j ≤ A.length / bs) :
    (A.drop (j * bs)).length / bs = A.length / bs - j := by
  rw [List.length_drop]
  have h1 : j * bs ≤ A.length := by
    calc j * bs ≤ (A.length / bs) * bs := Nat.mul_le_mul_right _ hj
    _ ≤ A.length := Nat.div_mul_le_self _ _
  rw [Nat.mul_comm j bs] at h1 ⊢
  exact Nat.sub_mul_div A.length bs j h1

/-- Characterization of the encrypt_write loop in non-final mode: with enough
fuel it consumes the whole input, emits the CBC encryption of all complete
blocks of the internally buffered bytes followed by the input, and leaves the
sub-block remainder buffered in the engine. -/
theorem encLoop_nonfinal (C : Cipher) :
    ∀ (fuel : Nat) (st : EncState) (inp acc : List Nat),
      st.finished = false → st.chain.length = C.bs →
      inp.length + st.ibuf.length + st.obuf.length < fuel →
      encLoop C fuel st inp acc false =
        .ok (acc ++ st.obuf ++ (cbcEncB C st.chain (fullChunks C.bs (st.ibuf ++ inp))).1.flatten)
          ⟨(cbcEncB C st.chain (fullChunks C.bs (st.ibuf ++ inp))).2,
           (st.ibuf ++ inp).drop (C.bs * ((st.ibuf ++ inp).length / C.bs)), [], false⟩ := by
  intro fuel
  induction fuel with
  | zero =>
    intro st inp acc _ _ hm
    omega
  | succ fuel ih =>
    intro st inp acc hfin hch hm
    have hbs := C.bs_pos
    have hbuf : bufferSize = 8192 := rfl
    have hstep : encStep C st inp bufferSize false = encStep C st inp bufferSize false := rfl
    conv_lhs at hstep => simp only [encStep, hfin, Bool.false_eq_true, if_false]
    split_ifs at hstep with hov hcond
    · -- pending engine output exceeds the 8192-byte buffer: drain one chunk
      simp only [encLoop, hstep.symm, Bool.false_eq_true, if_false]
      simp only [List.drop_zero]
      rw [ih ⟨st.chain, st.ibuf, st.obuf.drop bufferSize, false⟩ inp
        (acc ++ st.obuf.take bufferSize) rfl hch (by simp only [List.length_drop]; omega)]
      simp only []
      rw [cat4]
    · -- underflow: everything processed and delivered
      simp only [encLoop, hstep.symm, Bool.false_eq_true, if_false]
      rw [List.drop_length, if_pos rfl]
      obtain ⟨hm1, _⟩ := hcond
      rw [hm1, Nat.mul_comm ((st.ibuf ++ inp).length / C.bs) C.bs, fullChunks_take_div C.bs hbs]
      simp [List.append_assoc]
    · -- overflow: a full 8192-byte chunk was delivered; recurse on the rest
      simp only [encLoop, hstep.symm, Bool.false_eq_true, if_false]
      generalize hj : min ((st.ibuf ++ inp).length / C.bs)
          ((bufferSize - st.obuf.length + C.bs - 1) / C.bs) = j at hcond ⊢
      have hjk : j ≤ (st.ibuf ++ inp).length / C.bs := by
        rw [← hj]
        exact min_le_left _ _
      have hMle : j * C.bs ≤ (st.ibuf ++ inp).length := by
        calc j * C.bs ≤ ((st.ibuf ++ inp).length / C.bs) * C.bs := Nat.mul_le_mul_right _ hjk
        _ ≤ (st.ibuf ++ inp).length := Nat.div_mul_le_self _ _
      have hout_len : (cbcEncB C st.chain
          (fullChunks C.bs ((st.ibuf ++ inp).take (j * C.bs)))).1.flatten.length = j * C.bs :=
        encTake_flatten_length C st.chain hch _ j hMle
      have hcap : bufferSize - st.obuf.length ≤ j * C.bs := by
        rcases not_and_or.mp hcond with hne | hgt
        · have hje : j = (bufferSize - st.obuf.length + C.bs - 1) / C.bs := by
            rcases Nat.le_total ((st.ibuf ++ inp).length / C.bs)
              ((bufferSize - st.obuf.length + C.bs - 1) / C.bs) with h | h
            · exfalso
              apply hne
              rw [← hj, min_eq_left h]
            · rw [← hj, min_eq_right h]
          calc bufferSize - st.obuf.length
              ≤ ((bufferSize - st.obuf.length + C.bs - 1) / C.bs) * C.bs :=
                le_ceil_mul C.bs _ hbs
          _ = j * C.bs := by rw [hje]
        · rw [hout_len] at hgt
          omega
      have hL : (st.ibuf ++ inp).length = st.ibuf.length + inp.length := by simp
      have hchain2 : (cbcEncB C st.chain
          (fullChunks C.bs ((st.ibuf ++ inp).take (j * C.bs)))).2.length = C.bs :=
        encChain_length C st.chain hch _ (fullChunks_mem_length _ _)
      have hmeas : (inp.drop (j * C.bs - st.ibuf.length)).length +
          (st.ibuf.drop (j * C.bs)).length +
          ((cbcEncB C st.chain (fullChunks C.bs ((st.ibuf ++ inp).take (j * C.bs)))).1.flatten.drop
            (bufferSize - st.obuf.length)).length < fuel := by
        simp only [List.length_drop, hout_len]
        omega
      rw [ih _ _ _ rfl hchain2 hmeas]
      have hA2 : (st.ibuf.drop (j * C.bs)) ++ (inp.drop (j * C.bs - st.ibuf.length)) =
          (st.ibuf ++ inp).drop (j * C.bs) :=
        (List.drop_append_eq_append_drop).symm
      simp only []
      rw [hA2]
      obtain ⟨hsplit1, hsplit2⟩ := cbcEnc_take_drop C st.chain (st.ibuf ++ inp) j hMle
      congr 1
      · rw [cat5, ← hsplit1]
      · rw [← hsplit2, resid_drop_drop C.bs hbs (st.ibuf ++ inp) j hjk]


/-- The flush call of the writer: a final-mode encrypt_write with empty input
emits exactly the encryption of the padded remainder (one block when less
than a block is buffered, which always fits the 8192-byte buffer). -/
theorem encLoop_final (C : Cipher) (st : EncState) (acc : List Nat) (fuel : Nat)
    (hfin : st.finished = false) (hob : st.obuf = []) (hib : st.ibuf.length < C.bs)
    (hch : st.chain.length = C.bs) (hbs8 : C.bs ≤ bufferSize) (hfuel : 0 < fuel) :
    encLoop C fuel st [] acc true =
      EncOut.ok (acc ++ (cbcEncB C st.chain (fullChunks C.bs (padMsg C.bs st.ibuf))).1.flatten)
        ⟨(cbcEncB C st.chain (fullChunks C.bs (padMsg C.bs st.ibuf))).2, [], [], true⟩ := by
  have hbs := C.bs_pos
  obtain ⟨fuel, rfl⟩ : ∃ f, fuel = f + 1 := ⟨fuel - 1, by omega⟩
  have hplen : (padMsg C.bs (st.ibuf ++ [])).length = C.bs := by
    rw [List.append_nil, padMsg_length C.bs hbs]
    rw [Nat.div_eq_of_lt hib]
    simp
  have hflat : (cbcEncB C st.chain
      (fullChunks C.bs (padMsg C.bs (st.ibuf ++ [])))).1.flatten.length = C.bs := by
    rw [encFlatten_length C st.chain hch _ (fullChunks_mem_length _ _),
      fullChunks_count C.bs hbs, hplen, Nat.div_self hbs, Nat.mul_one]
  have hstep : encStep C st [] bufferSize true = encStep C st [] bufferSize true := rfl
  conv_lhs at hstep => simp only [encStep, hfin, Bool.false_eq_true, if_false]
  split_ifs at hstep with h1 h2
  · exfalso
    rw [hob] at h1
    simp at h1
  · simp only [encLoop, hstep.symm, Bool.false_eq_true, if_false]
    simp only [List.length_nil, List.drop_zero, eq_self_iff_true, if_true]
    rw [hob, List.append_nil, List.nil_append]
  · exfalso
    apply h2
    rw [hob, List.nil_append, hflat]
    omega

/-- The pending plaintext remainder and full-block decomposition of the bytes
written so far: the writer invariant. -/
def WInv (C : Cipher) (iv : List Nat) (w : WriterSt) (written : List Nat) : Prop :=
  w.closed = false ∧ w.enc.finished = false ∧ w.enc.obuf = [] ∧
  w.enc.chain = (cbcEncB C iv (fullChunks C.bs written)).2 ∧
  w.enc.ibuf = written.drop (C.bs * (written.length / C.bs)) ∧
  w.sink = (cbcEncB C iv (fullChunks C.bs written)).1.flatten ∧
  w.flushes = 0

theorem winv_init (C : Cipher) (iv : List Nat) : WInv C iv (writerNew iv) [] := by
  refine ⟨rfl, rfl, rfl, ?_, ?_, ?_, rfl⟩ <;> simp [writerNew, fullChunks_nil]

/-- Appending fresh input to the written stream extends its CBC encryption by
the encryption of the pending remainder plus the new bytes. -/
theorem cbcEnc_extend (C : Cipher) (iv written buf : List Nat) :
    (cbcEncB C iv (fullChunks C.bs (written ++ buf))).1.flatten =
      (cbcEncB C iv (fullChunks C.bs written)).1.flatten ++
      (cbcEncB C (cbcEncB C iv (fullChunks C.bs written)).2
        (fullChunks C.bs (written.drop (C.bs * (written.length / C.bs)) ++ buf))).1.flatten ∧
    (cbcEncB C iv (fullChunks C.bs (written ++ buf))).2 =
      (cbcEncB C (cbcEncB C iv (fullChunks C.bs written)).2
        (fullChunks C.bs (written.drop (C.bs * (written.length / C.bs)) ++ buf))).2 := by
  have hbs := C.bs_pos
  have hqw : C.bs * (written.length / C.bs) ≤ written.length :=
    mul_div_le_self_left C.bs written.length
  have hq : C.bs * (written.length / C.bs) ≤ (written ++ buf).length := by
    simp only [List.length_append]
    omega
  have hsplit := fullChunks_split C.bs hbs (written ++ buf) (written.length / C.bs) hq
  have htake : (written ++ buf).take (C.bs * (written.length / C.bs)) =
      written.take (C.bs * (written.length / C.bs)) :=
    List.take_append_of_le_length hqw
  have hdrop : (written ++ buf).drop (C.bs * (written.length / C.bs)) =
      written.drop (C.bs * (written.length / C.bs)) ++ buf :=
    List.drop_append_of_le_length hqw
  rw [hsplit, htake, hdrop, fullChunks_take_div C.bs hbs written, cbcEncB_append]
  simp

/-- The sub-block remainder of the extended stream is computed from the old
remainder plus the new bytes. -/
theorem resid_extend (bs : Nat) (hbs : 0 < bs) (written buf : List Nat) :
    (written ++ buf).drop (bs * ((written ++ buf).length / bs)) =
      (written.drop (bs * (written.length / bs)) ++ buf).drop
        (bs * ((written.drop (bs * (written.length / bs)) ++ buf).length / bs)) := by
  have hqw : bs * (written.length / bs) ≤ written.length :=
    mul_div_le_self_left bs written.length
  have hdm := Nat.div_add_mod written.length bs
  have hlen : (written.drop (bs * (written.length / bs)) ++ buf).length =
      written.length % bs + buf.length := by
    simp only [List.length_append, List.length_drop]
    omega
  have hdropapp : (written ++ buf).drop (bs * (written.length / bs)) =
      written.drop (bs * (written.length / bs)) ++ buf :=
    List.drop_append_of_le_length hqw
  rw [hlen, ← hdropapp, List.drop_drop]
  congr 1
  have hsum : (written ++ buf).length / bs =
      written.length / bs + (written.length % bs + buf.length) / bs := by
    simp only [List.length_append]
    conv_lhs => rw [show written.length + buf.length =
      bs * (written.length / bs) + (written.length % bs + buf.length) from by omega]
    rw [Nat.mul_add_div hbs]
  rw [hsum, Nat.mul_add]

/-- One write call preserves the writer invariant, returns the full input
length, and appends the encryption of the newly completed blocks. -/
theorem winv_write (C : Cipher) (iv : List Nat) (hiv : iv.length = C.bs) (w : WriterSt)
    (written buf : List Nat) (h : WInv C iv w written) :
    ∃ w2, writerWrite C w buf = .ok (buf.length, w2) ∧ WInv C iv w2 (written ++ buf) := by
  obtain ⟨hcl, hfin, hob, hch, hib, hsink, hfl⟩ := h
  have hbs := C.bs_pos
  have hchlen : w.enc.chain.length = C.bs := by
    rw [hch]
    exact encChain_length C iv hiv _ (fullChunks_mem_length _ _)
  rw [writerWrite, if_neg (by rw [hcl]; exact Bool.false_ne_true)]
  rw [writerEncryptWrite, encryptWrite]
  rw [encLoop_nonfinal C (buf.length + w.enc.ibuf.length + w.enc.obuf.length + 1)
    w.enc buf [] hfin hchlen (by omega)]
  simp only []
  refine ⟨_, rfl, ?_, rfl, rfl, ?_, ?_, ?_, hfl⟩
  · exact hcl
  · show (cbcEncB C w.enc.chain (fullChunks C.bs (w.enc.ibuf ++ buf))).2 =
      (cbcEncB C iv (fullChunks C.bs (written ++ buf))).2
    rw [hch, hib]
    exact (cbcEnc_extend C iv written buf).2.symm
  · show (w.enc.ibuf ++ buf).drop (C.bs * ((w.enc.ibuf ++ buf).length / C.bs)) =
      (written ++ buf).drop (C.bs * ((written ++ buf).length / C.bs))
    rw [hib]
    exact (resid_extend C.bs hbs written buf).symm
  · show w.sink ++ ([] ++ w.enc.obuf ++
        (cbcEncB C w.enc.chain (fullChunks C.bs (w.enc.ibuf ++ buf))).1.flatten) =
      (cbcEncB C iv (fullChunks C.bs (written ++ buf))).1.flatten
    rw [hob, hsink, hch, hib, List.nil_append, List.nil_append]
    exact (cbcEnc_extend C iv written buf).1.symm

/-- A sequence of writes preserves the invariant, accumulating the flattened
input. -/
theorem winv_runWrites (C : Cipher) (iv : List Nat) (hiv : iv.length = C.bs) :
    ∀ (chunks : List (List Nat)) (w : WriterSt) (written : List Nat),
      WInv C iv w written →
      ∃ w2, runWrites C w chunks = .ok w2 ∧ WInv C iv w2 (written ++ chunks.flatten) := by
  intro chunks
  induction chunks with
  | nil =>
    intro w written h
    exact ⟨w, rfl, by simpa using h⟩
  | cons c rest ih =>
    intro w written h
    obtain ⟨w2, hw2, hinv2⟩ := winv_write C iv hiv w written c h
    obtain ⟨w3, hw3, hinv3⟩ := ih w2 (written ++ c) hinv2
    refine ⟨w3, ?_, ?_⟩
    · simp only [runWrites, hw2]
      exact hw3
    · simpa [List.append_assoc] using hinv3

/-- Flushing a writer satisfying the invariant emits the final padded
block(s), closes the writer, flushes the sink once, and leaves the sink
holding exactly the CBC encryption of the padded written stream. -/
theorem winv_flush (C : Cipher) (iv : List Nat) (hiv : iv.length = C.bs)
    (hbs8 : C.bs ≤ bufferSize) (w : WriterSt) (written : List Nat) (h : WInv C iv w written) :
    ∃ w2, writerFlush C w = .ok w2 ∧
      w2.sink = (cbcEncB C iv (fullChunks C.bs (padMsg C.bs written))).1.flatten ∧
      w2.closed = true ∧ w2.flushes = 1 ∧ w2.enc.finished = true := by
  obtain ⟨hcl, hfin, hob, hch, hib, hsink, hfl⟩ := h
  have hbs := C.bs_pos
  have hchlen : w.enc.chain.length = C.bs := by
    rw [hch]
    exact encChain_length C iv hiv _ (fullChunks_mem_length _ _)
  have hiblen : w.enc.ibuf.length < C.bs := by
    rw [hib]
    have hdm := Nat.div_add_mod written.length C.bs
    have hmod : written.length % C.bs < C.bs := Nat.mod_lt _ hbs
    simp only [List.length_drop]
    omega
  rw [writerFlush, if_neg (by rw [hcl]; exact Bool.false_ne_true)]
  rw [writerEncryptWrite, encryptWrite]
  rw [encLoop_final C w.enc [] _ hfin hob hiblen hchlen hbs8 (by simp)]
  simp only []
  refine ⟨_, rfl, ?_, rfl, by rw [hfl], rfl⟩
  show w.sink ++ (cbcEncB C w.enc.chain (fullChunks C.bs (padMsg C.bs w.enc.ibuf))).1.flatten =
    (cbcEncB C iv (fullChunks C.bs (padMsg C.bs written))).1.flatten
  rw [hsink, hch, hib]
  -- the padding of the remainder equals the padding of the whole stream
  have hqw : C.bs * (written.length / C.bs) ≤ written.length :=
    mul_div_le_self_left C.bs written.length
  have hdm := Nat.div_add_mod written.length C.bs
  have hmod : written.length % C.bs < C.bs := Nat.mod_lt _ hbs
  have hlr : (written.drop (C.bs * (written.length / C.bs))).length =
      written.length % C.bs := by
    simp only [List.length_drop]
    omega
  have hpad2 : padMsg C.bs (written.drop (C.bs * (written.length / C.bs))) =
      written.drop (C.bs * (written.length / C.bs)) ++
      List.replicate (C.bs - written.length % C.bs) (C.bs - written.length % C.bs) := by
    rw [padMsg, hlr, Nat.mod_eq_of_lt hmod]
  have hpad1 : padMsg C.bs written = written ++
      List.replicate (C.bs - written.length % C.bs) (C.bs - written.length % C.bs) := rfl
  rw [hpad2, hpad1]
  exact (cbcEnc_extend C iv written
    (List.replicate (C.bs - written.length % C.bs) (C.bs - written.length % C.bs))).1.symm

theorem cbcDecB_blocks_length (C : Cipher) (ch : List Nat) (xs : List (List Nat))
    (hch : ch.length = C.bs) (hxs : ∀ b ∈ xs, b.length = C.bs) :
    (∀ b ∈ (cbcDecB C ch xs).1, b.length = C.bs) ∧ (cbcDecB C ch xs).2.length = C.bs := by
  induction xs generalizing ch with
  | nil => simpa using hch
  | cons b rest ih =>
    have hb : b.length = C.bs := hxs b (by simp)
    have hdb : (C.decB b).length = C.bs := C.decB_length _ hb
    have := ih b hb (fun x hx => hxs x (by simp [hx]))
    refine ⟨?_, ?_⟩
    · intro x hx
      rw [cbcDecB_cons] at hx
      simp only [List.mem_cons] at hx
      rcases hx with h | h
      · rw [h]
        simp [hch, hdb]
      · exact this.1 x h
    · rw [cbcDecB_cons]
      exact this.2

theorem decFlatten_length (C : Cipher) (ch : List Nat) (hch : ch.length = C.bs)
    (bl : List (List Nat)) (hbl : ∀ b ∈ bl, b.length = C.bs) :
    (cbcDecB C ch bl).1.flatten.length = C.bs * bl.length := by
  rw [join_length_uniform C.bs _ (cbcDecB_blocks_length C ch bl hch hbl).1, cbcDecB_length]

/-- Block-level CBC decryption restricts to prefixes. -/
theorem cbcDecB_take_first (C : Cipher) (ch : List Nat) (bl : List (List Nat)) (m : Nat) :
    (cbcDecB C ch bl).1.take m = (cbcDecB C ch (bl.take m)).1 := by
  by_cases hm : m ≤ bl.length
  · conv_lhs => rw [← List.take_append_drop m bl, cbcDecB_append]
    simp only []
    rw [List.take_append_eq_append_take, cbcDecB_length, List.length_take, min_eq_left hm,
      List.take_of_length_le (by rw [cbcDecB_length, List.length_take, min_eq_left hm]),
      Nat.sub_self, List.take_zero, List.append_nil]
  · rw [List.take_of_length_le (by rw [cbcDecB_length]; omega),
      List.take_of_length_le (by omega)]

theorem cbcDecB_drop_first (C : Cipher) (ch : List Nat) (bl : List (List Nat)) (m : Nat) :
    (cbcDecB C ch bl).1.drop m =
      (cbcDecB C (cbcDecB C ch (bl.take m)).2 (bl.drop m)).1 := by
  conv_lhs => rw [← List.take_append_drop m bl, cbcDecB_append]
  simp only []
  rw [List.drop_append_eq_append_drop, cbcDecB_length, List.length_take]
  by_cases hm : m ≤ bl.length
  · rw [min_eq_left hm,
      List.drop_of_length_le (by rw [cbcDecB_length, List.length_take, min_eq_left hm]),
      Nat.sub_self, List.drop_zero, List.nil_append]
  · have hd : bl.drop m = [] := List.drop_of_length_le (by omega)
    rw [hd, List.drop_of_length_le (by rw [cbcDecB_length, List.length_take]; omega)]
    simp

theorem cbcDecB_chain_split (C : Cipher) (ch : List Nat) (bl : List (List Nat)) (m : Nat) :
    (cbcDecB C ch bl).2 = (cbcDecB C (cbcDecB C ch (bl.take m)).2 (bl.drop m)).2 := by
  conv_lhs => rw [← List.take_append_drop m bl, cbcDecB_append]

/-- Byte-level prefix of the decrypted stream from a block prefix. -/
theorem decFlatten_take (C : Cipher) (ch : List Nat) (hch : ch.length = C.bs)
    (bl : List (List Nat)) (hbl : ∀ b ∈ bl, b.length = C.bs) (m : Nat) :
    (cbcDecB C ch bl).1.flatten.take (C.bs * m) = (cbcDecB C ch (bl.take m)).1.flatten := by
  rw [join_take_uniform C.bs _ m (cbcDecB_blocks_length C ch bl hch hbl).1, cbcDecB_take_first]

theorem decFlatten_drop (C : Cipher) (ch : List Nat) (hch : ch.length = C.bs)
    (bl : List (List Nat)) (hbl : ∀ b ∈ bl, b.length = C.bs) (m : Nat) :
    (cbcDecB C ch bl).1.flatten.drop (C.bs * m) =
      (cbcDecB C (cbcDecB C ch (bl.take m)).2 (bl.drop m)).1.flatten := by
  rw [join_drop_uniform C.bs _ m (cbcDecB_blocks_length C ch bl hch hbl).1, cbcDecB_drop_first]

/-- Taking m whole blocks of bytes corresponds to taking m chunks. -/
theorem fullChunks_take_mul (bs : Nat) (hbs : 0 < bs) (c : List Nat) (m : Nat)
    (hm : m ≤ c.length / bs) :
    fullChunks bs (c.take (bs * m)) = (fullChunks bs c).take m := by
  have h1 : c.take (bs * m) = ((fullChunks bs c).take m).flatten := by
    rw [← join_take_uniform bs _ m (fullChunks_mem_length bs c),
      flatten_fullChunks bs hbs c, List.take_take, min_eq_left (Nat.mul_le_mul_left bs hm)]
  rw [h1]
  have h2 := fullChunks_join_uniform bs hbs ((fullChunks bs c).take m) []
    (fun b hb => fullChunks_mem_length bs c b (List.mem_of_mem_take hb)) (by simpa using hbs)
  simpa using h2

/-- Dropping m whole blocks of bytes yields the remaining chunks plus the
trailing partial block. -/
theorem drop_mul_fullChunks (bs : Nat) (hbs : 0 < bs) (c : List Nat) (m : Nat)
    (hm : m ≤ c.length / bs) :
    c.drop (bs * m) = ((fullChunks bs c).drop m).flatten ++ c.drop (bs * (c.length / bs)) := by
  conv_lhs => rw [← List.take_append_drop (bs * (c.length / bs)) c]
  rw [List.drop_append_eq_append_drop]
  have hKlen : (c.take (bs * (c.length / bs))).length = bs * (c.length / bs) := by
    simp only [List.length_take]
    exact min_eq_left (mul_div_le_self_left bs c.length)
  have hmle : bs * m ≤ bs * (c.length / bs) := Nat.mul_le_mul_left bs hm
  rw [hKlen, Nat.sub_eq_zero_of_le hmle, List.drop_zero]
  congr 1
  rw [show c.take (bs * (c.length / bs)) = (fullChunks bs c).flatten from
    (flatten_fullChunks bs hbs c).symm,
    join_drop_uniform bs _ m (fullChunks_mem_length bs c)]

/-- A multiple of bs that is at most n is at most the largest block multiple
within n. -/
theorem mul_le_block_bound (bs a n : Nat) (hbs : 0 < bs) (ha : a % bs = 0) (h : a ≤ n) :
    a ≤ bs * (n / bs) := by
  have h1 : a = bs * (a / bs) := by
    have := Nat.div_add_mod a bs
    omega
  rw [h1]
  exact Nat.mul_le_mul_left bs (Nat.div_le_div_right h)

/-- Decrypting a block-aligned segment of the ciphertext, starting from the
chaining value reached after the preceding blocks, yields the corresponding
bytes of the full decrypted stream and reaches the corresponding chaining
value. -/
theorem cbcDec_segment (C : Cipher) (chain0 c : List Nat) (hch0 : chain0.length = C.bs)
    (m j : Nat) (hmj : m + j ≤ c.length / C.bs) :
    (cbcDecB C (cbcDecB C chain0 (fullChunks C.bs (c.take (C.bs * m)))).2
       (fullChunks C.bs ((c.drop (C.bs * m)).take (j * C.bs)))).1.flatten =
      ((cbcDecB C chain0 (fullChunks C.bs c)).1.flatten.take (C.bs * (m + j))).drop (C.bs * m) ∧
    (cbcDecB C (cbcDecB C chain0 (fullChunks C.bs (c.take (C.bs * m)))).2
       (fullChunks C.bs ((c.drop (C.bs * m)).take (j * C.bs)))).2 =
      (cbcDecB C chain0 (fullChunks C.bs (c.take (C.bs * (m + j))))).2 := by
  have hbs := C.bs_pos
  have hm : m ≤ c.length / C.bs := by omega
  have hallc := fullChunks_mem_length C.bs c
  have hcount := fullChunks_count C.bs hbs c
  -- the prefix blocks
  rw [fullChunks_take_mul C.bs hbs c m hm]
  -- the segment blocks
  have hseg : (c.drop (C.bs * m)).take (j * C.bs) =
      (((fullChunks C.bs c).drop m).take j).flatten := by
    rw [drop_mul_fullChunks C.bs hbs c m hm, List.take_append_of_le_length, Nat.mul_comm j C.bs,
      join_take_uniform C.bs _ j (fun b hb => hallc b (List.mem_of_mem_drop hb))]
    rw [join_length_uniform C.bs _ (fun b hb => hallc b (List.mem_of_mem_drop hb))]
    rw [List.length_drop, hcount]
    calc j * C.bs ≤ (c.length / C.bs - m) * C.bs := Nat.mul_le_mul_right _ (by omega)
    _ = C.bs * (c.length / C.bs - m) := Nat.mul_comm _ _
  rw [hseg]
  have hfc : fullChunks C.bs ((((fullChunks C.bs c).drop m).take j)).flatten =
      ((fullChunks C.bs c).drop m).take j := by
    have h2 := fullChunks_join_uniform C.bs hbs (((fullChunks C.bs c).drop m).take j) []
      (fun b hb => hallc b (List.mem_of_mem_drop (List.mem_of_mem_take hb))) (by simpa using hbs)
    simpa using h2
  rw [hfc]
  have htadd : (fullChunks C.bs c).take (m + j) =
      (fullChunks C.bs c).take m ++ ((fullChunks C.bs c).drop m).take j :=
    List.take_add _ m j
  constructor
  · rw [decFlatten_take C chain0 hch0 _ hallc (m + j), htadd, cbcDecB_append]
    simp only [List.flatten_append]
    rw [List.drop_append_eq_append_drop]
    have hlen1 : (cbcDecB C chain0 ((fullChunks C.bs c).take m)).1.flatten.length =
        C.bs * m := by
      rw [decFlatten_length C chain0 hch0 _ (fun b hb => hallc b (List.mem_of_mem_take hb)),
        List.length_take, hcount, min_eq_left hm]
    rw [hlen1, List.drop_of_length_le (le_of_eq hlen1), Nat.sub_self, List.drop_zero,
      List.nil_append]
  · rw [fullChunks_take_mul C.bs hbs c (m + j) hmj, htadd, cbcDecB_append]

theorem decTake_flatten_length (C : Cipher) (ch : List Nat) (hch : ch.length = C.bs)
    (A : List Nat) (j : Nat) (hj : j * C.bs ≤ A.length) :
    (cbcDecB C ch (fullChunks C.bs (A.take (j * C.bs)))).1.flatten.length = j * C.bs := by
  rw [decFlatten_length C ch hch _ (fullChunks_mem_length _ _),
    fullChunks_count C.bs C.bs_pos, take_mul_length C.bs A j hj,
    Nat.mul_div_cancel _ C.bs_pos, Nat.mul_comm]

theorem decChain_length (C : Cipher) (ch : List Nat) (hch : ch.length = C.bs)
    (bl : List (List Nat)) (hbl : ∀ b ∈ bl, b.length = C.bs) :
    (cbcDecB C ch bl).2.length = C.bs :=
  (cbcDecB_blocks_length C ch bl hch hbl).2

/-- Concatenating two adjacent windows of a list. -/
theorem drop_take_chain (P : List Nat) (d q q2 : Nat) (hd : d ≤ q) (hq : q ≤ q2)
    (hqP : q ≤ P.length) :
    (P.take q2).drop d = (P.take q).drop d ++ (P.take q2).drop q := by
  have h1 : P.take q2 = P.take q ++ (P.drop q).take (q2 - q) := by
    rw [← List.take_add]
    congr 1
    omega
  have h2 : (P.take q2).drop q = (P.drop q).take (q2 - q) := by
    rw [List.drop_take]
  rw [h2, h1, List.drop_append_eq_append_drop, List.length_take, min_eq_left hqP,
    Nat.sub_eq_zero_of_le hd, List.drop_zero]

/-- Characterization of a non-final decryption engine call against the global
ciphertext stream c: starting from the state reached after m processed blocks
with d bytes delivered, the call advances to some m2 processed blocks,
delivers the corresponding window of the decrypted stream (capped by the
output buffer), and maintains all the stream bookkeeping. -/
theorem decStep_nonfinal_char (C : Cipher) (chain0 c : List Nat) (hch0 : chain0.length = C.bs)
    (dec : DecState) (inp rest : List Nat) (cap d m : Nat)
    (hfin : dec.finished = false)
    (hch : dec.chain = (cbcDecB C chain0 (fullChunks C.bs (c.take (C.bs * m)))).2)
    (hcat : dec.ibuf ++ (inp ++ rest) = c.drop (C.bs * m))
    (hib : dec.ibuf.length ≤ C.bs)
    (hob : dec.obuf = ((cbcDecB C chain0 (fullChunks C.bs c)).1.flatten.take (C.bs * m)).drop d)
    (hd : d ≤ C.bs * m)
    (hm : C.bs * m ≤ c.length) :
    ∃ out cons dec2 res m2,
      decStep C dec inp cap false = .ok (out, cons, dec2, res) ∧
      m ≤ m2 ∧
      C.bs * m2 ≤ C.bs * m + dec.ibuf.length + inp.length ∧
      (dec.ibuf.length + inp.length ≠ 0 →
        C.bs * m2 ≤ C.bs * m + (dec.ibuf.length + inp.length - 1)) ∧
      out = (((cbcDecB C chain0 (fullChunks C.bs c)).1.flatten.take (C.bs * m2)).drop d).take cap ∧
      out.length = min (C.bs * m2 - d) cap ∧
      cons ≤ inp.length ∧
      dec2.finished = false ∧
      dec2.chain = (cbcDecB C chain0 (fullChunks C.bs (c.take (C.bs * m2)))).2 ∧
      dec2.ibuf ++ ((inp.drop cons) ++ rest) = c.drop (C.bs * m2) ∧
      dec2.ibuf.length ≤ C.bs ∧
      dec2.obuf = ((cbcDecB C chain0 (fullChunks C.bs c)).1.flatten.take (C.bs * m2)).drop
        (d + out.length) ∧
      d + out.length ≤ C.bs * m2 ∧
      (res = BufRes.overflow → out.length = cap ∧ (cons < inp.length ∨ cons = 0)) ∧
      (res = BufRes.underflow → cons = inp.length ∧ dec2.obuf = [] ∧
        d + out.length = C.bs * m2) := by
  have hbs := C.bs_pos
  have hallc := fullChunks_mem_length C.bs c
  have hPlen : (cbcDecB C chain0 (fullChunks C.bs c)).1.flatten.length =
      C.bs * (c.length / C.bs) := by
    rw [decFlatten_length C chain0 hch0 _ hallc, fullChunks_count C.bs hbs]
  have hqP : C.bs * m ≤ (cbcDecB C chain0 (fullChunks C.bs c)).1.flatten.length := by
    rw [hPlen]
    exact mul_le_block_bound C.bs (C.bs * m) c.length hbs (by simp [Nat.mul_mod_right]) hm
  have hoblen : dec.obuf.length = C.bs * m - d := by
    rw [hob]
    simp only [List.length_drop, List.length_take]
    omega
  have hchL : dec.chain.length = C.bs := by
    rw [hch]
    exact decChain_length C chain0 hch0 _ (fullChunks_mem_length C.bs (c.take (C.bs * m)))
  have hstep : decStep C dec inp cap false = decStep C dec inp cap false := rfl
  conv_lhs at hstep => simp only [decStep, hfin, Bool.false_eq_true, if_false]
  by_cases hov : cap < dec.obuf.length
  · -- only pending engine output is drained; nothing is processed
    rw [if_pos hov] at hstep
    refine ⟨_, _, _, _, m, hstep.symm, le_rfl, by omega, fun h => by omega, by rw [hob], ?_,
      Nat.zero_le _, rfl, hch, by simpa using hcat, hib, ?_, ?_, ?_, fun h => BufRes.noConfusion h⟩
    · rw [List.length_take, hoblen, Nat.min_comm]
    · have hc2 : (dec.obuf.take cap).length = cap := by
        rw [List.length_take]
        omega
      rw [hc2, hob, List.drop_drop]
    · rw [List.length_take, hoblen]
      omega
    · intro _
      refine ⟨?_, Or.inr rfl⟩
      rw [List.length_take]
      omega
  · -- engine output fits: blocks may be processed
    rw [if_neg hov] at hstep
    generalize hk : (if (dec.ibuf ++ inp).length = 0 then 0
      else ((dec.ibuf ++ inp).length - 1) / C.bs) = kv at hstep
    generalize hj : min kv ((cap - dec.obuf.length + C.bs - 1) / C.bs) = j at hstep
    have hnavail : (dec.ibuf ++ inp).length = dec.ibuf.length + inp.length := by simp
    have hjk : j ≤ kv := by
      rw [← hj]
      exact min_le_left _ _
    have hjb : j * C.bs + 1 ≤ dec.ibuf.length + inp.length ∨ j = 0 := by
      by_cases hn0 : (dec.ibuf ++ inp).length = 0
      · right
        rw [if_pos hn0] at hk
        omega
      · rw [if_neg hn0] at hk
        rcases Nat.eq_zero_or_pos j with hj0 | hjpos
        · right; exact hj0
        · left
          have h1 : j * C.bs ≤ kv * C.bs := Nat.mul_le_mul_right _ hjk
          have h2 : kv * C.bs ≤ (dec.ibuf ++ inp).length - 1 := by
            rw [← hk]
            exact Nat.div_mul_le_self _ _
          rw [hnavail] at h2 hn0
          omega
    have hjle : j * C.bs ≤ (dec.ibuf ++ inp).length := by
      rw [hnavail]
      rcases hjb with h | h
      · omega
      · simp [h]
    have hnle : dec.ibuf.length + inp.length ≤ c.length - C.bs * m := by
      have h1 := congrArg List.length hcat
      simp only [List.length_append, List.length_drop] at h1
      omega
    have hcomm : C.bs * j = j * C.bs := Nat.mul_comm _ _
    have hmadd : C.bs * (m + j) = C.bs * m + C.bs * j := Nat.mul_add _ _ _
    have hm2K : m + j ≤ c.length / C.bs := by
      rcases hjb with h | h
      · have h2 : C.bs * (m + j) ≤ C.bs * (c.length / C.bs) :=
          mul_le_block_bound C.bs _ c.length hbs (by simp [Nat.mul_mod_right]) (by omega)
        exact Nat.le_of_mul_le_mul_left h2 hbs
      · subst h
        have hmK : C.bs * m ≤ C.bs * (c.length / C.bs) :=
          mul_le_block_bound C.bs _ c.length hbs (by simp [Nat.mul_mod_right]) hm
        have := Nat.le_of_mul_le_mul_left hmK hbs
        omega
    have hseg := cbcDec_segment C chain0 c hch0 m j hm2K
    have htake_inp : (dec.ibuf ++ inp).take (j * C.bs) =
        (c.drop (C.bs * m)).take (j * C.bs) := by
      conv_rhs => rw [← hcat, ← List.append_assoc]
      rw [List.take_append_of_le_length hjle]
    have hplain_eq : (cbcDecB C dec.chain
        (fullChunks C.bs ((dec.ibuf ++ inp).take (j * C.bs)))).1.flatten =
        ((cbcDecB C chain0 (fullChunks C.bs c)).1.flatten.take (C.bs * (m + j))).drop
          (C.bs * m) := by
      rw [hch, htake_inp]
      exact hseg.1
    have hchain_eq : (cbcDecB C dec.chain
        (fullChunks C.bs ((dec.ibuf ++ inp).take (j * C.bs)))).2 =
        (cbcDecB C chain0 (fullChunks C.bs (c.take (C.bs * (m + j))))).2 := by
      rw [hch, htake_inp]
      exact hseg.2
    have hplen : (cbcDecB C dec.chain
        (fullChunks C.bs ((dec.ibuf ++ inp).take (j * C.bs)))).1.flatten.length = j * C.bs :=
      decTake_flatten_length C dec.chain hchL _ j hjle
    have hwin := drop_take_chain ((cbcDecB C chain0 (fullChunks C.bs c)).1.flatten) d
      (C.bs * m) (C.bs * (m + j)) hd (Nat.mul_le_mul_left _ (by omega)) hqP
    rw [← hob, ← hplain_eq] at hwin
    have hq2P : C.bs * (m + j) ≤
        (cbcDecB C chain0 (fullChunks C.bs c)).1.flatten.length := by
      rw [hPlen]
      exact Nat.mul_le_mul_left _ hm2K
    have hjmul : C.bs * (m + j) = C.bs * m + j * C.bs := by
      rw [hmadd, hcomm]
    have hjle2 : j * C.bs ≤ dec.ibuf.length + inp.length := by
      rw [← hnavail]
      exact hjle
    have hjbound : dec.ibuf.length + inp.length ≠ 0 →
        j * C.bs ≤ dec.ibuf.length + inp.length - 1 := by
      rcases hjb with h | h
      · intro _
        omega
      · intro _
        subst h
        simp
    generalize hpl : (cbcDecB C dec.chain
        (fullChunks C.bs ((dec.ibuf ++ inp).take (j * C.bs)))).1.flatten = pl
      at hstep hplen hplain_eq hwin
    split_ifs at hstep with hcond
    · -- underflow: everything processable was processed and delivered
      obtain ⟨hjkv, hfit⟩ := hcond
      rw [hplen] at hfit
      have hfits : (dec.obuf ++ pl).length ≤ cap := by
        simp only [List.length_append, hplen, hoblen]
        omega
      refine ⟨_, _, _, _, m + j, hstep.symm, Nat.le_add_right m j, by omega,
        fun h => by have hb2 := hjbound h; omega, ?_, ?_, le_rfl, rfl, hchain_eq,
        ?_, ?_, ?_, ?_, fun h => BufRes.noConfusion h, fun _ => ⟨rfl, rfl, ?_⟩⟩
      · rw [hwin, List.take_of_length_le hfits]
      · simp only [List.length_append, hplen, hoblen]
        omega
      · show (dec.ibuf ++ inp).drop (j * C.bs) ++ (inp.drop inp.length ++ rest) =
          c.drop (C.bs * (m + j))
        rw [List.drop_length, List.nil_append]
        have h1 : (dec.ibuf ++ inp).drop (j * C.bs) ++ rest =
            ((dec.ibuf ++ inp) ++ rest).drop (j * C.bs) :=
          (List.drop_append_of_le_length hjle).symm
        rw [h1, List.append_assoc, hcat, List.drop_drop]
        congr 1
        omega
      · show ((dec.ibuf ++ inp).drop (j * C.bs)).length ≤ C.bs
        simp only [List.length_drop]
        by_cases hn0 : (dec.ibuf ++ inp).length = 0
        · omega
        · rw [if_neg hn0] at hk
          have h1 := Nat.div_add_mod ((dec.ibuf ++ inp).length - 1) C.bs
          have h2 : ((dec.ibuf ++ inp).length - 1) % C.bs < C.bs := Nat.mod_lt _ hbs
          rw [hk, ← hjkv] at h1
          omega
      · refine (List.drop_of_length_le ?_).symm
        simp only [List.length_take, List.length_append, hplen, hoblen, hPlen]
        omega
      · simp only [List.length_append, hplen, hoblen]
        omega
      · simp only [List.length_append, hplen, hoblen]
        omega
    · -- overflow: the output buffer is filled exactly
      have hcap1 : cap - dec.obuf.length ≤ j * C.bs := by
        rcases not_and_or.mp hcond with hne | hgt
        · have hje : j = (cap - dec.obuf.length + C.bs - 1) / C.bs := by
            rcases Nat.le_total kv ((cap - dec.obuf.length + C.bs - 1) / C.bs) with h | h
            · exfalso
              apply hne
              rw [← hj, min_eq_left h]
            · rw [← hj, min_eq_right h]
          calc cap - dec.obuf.length
              ≤ ((cap - dec.obuf.length + C.bs - 1) / C.bs) * C.bs := le_ceil_mul C.bs _ hbs
          _ = j * C.bs := by rw [hje]
        · rw [hplen] at hgt
          omega
      have hole : dec.obuf.length ≤ cap := le_of_not_lt hov
      have h5 : (dec.obuf ++ pl).take cap =
          dec.obuf.take cap ++ pl.take (cap - dec.obuf.length) :=
        List.take_append_eq_append_take
      refine ⟨_, _, _, _, m + j, hstep.symm, Nat.le_add_right m j, by omega,
        fun h => by have hb2 := hjbound h; omega, ?_, ?_, by omega, rfl, hchain_eq,
        ?_, ?_, ?_, ?_, fun _ => ⟨?_, ?_⟩, fun h => BufRes.noConfusion h⟩
      · rw [hwin, h5, List.take_of_length_le hole]
      · simp only [List.length_append, List.length_take, hplen, hoblen]
        omega
      · show dec.ibuf.drop (j * C.bs) ++ (inp.drop (j * C.bs - dec.ibuf.length) ++ rest) =
          c.drop (C.bs * (m + j))
        rw [← List.append_assoc, ← List.drop_append_eq_append_drop]
        have h1 : (dec.ibuf ++ inp).drop (j * C.bs) ++ rest =
            ((dec.ibuf ++ inp) ++ rest).drop (j * C.bs) :=
          (List.drop_append_of_le_length hjle).symm
        rw [h1, List.append_assoc, hcat, List.drop_drop]
        congr 1
        omega
      · show (dec.ibuf.drop (j * C.bs)).length ≤ C.bs
        simp only [List.length_drop]
        omega
      · have hidx : C.bs * m + (cap - dec.obuf.length) =
            d + (dec.obuf ++ pl.take (cap - dec.obuf.length)).length := by
          simp only [List.length_append, List.length_take, hplen, hoblen]
          omega
        conv_lhs => rw [hplain_eq]
        rw [List.drop_drop, hidx]
      · simp only [List.length_append, List.length_take, hplen, hoblen]
        omega
      · simp only [List.length_append, List.length_take, hplen, hoblen]
        omega
      · show j * C.bs - dec.ibuf.length < inp.length ∨ j * C.bs - dec.ibuf.length = 0
        by_cases h2 : j * C.bs ≤ dec.ibuf.length
        · right
          omega
        · left
          rcases hjb with h | h
          · omega
          · exfalso
            apply h2
            rw [h]
            simp

/-- The decryption engine on an idle state (no buffered input or output) with
no fresh input: a trivial underflow that changes nothing. -/
theorem decStep_idle (C : Cipher) (ch : List Nat) (cap : Nat) :
    decStep C ⟨ch, [], [], false⟩ [] cap false =
      .ok ([], 0, ⟨ch, [], [], false⟩, .underflow) := by
  simp [decStep, fullChunks_nil]

/-- A finished decryption engine only drains its pending output. -/
theorem decStep_finished (C : Cipher) (st : DecState) (hfin : st.finished = true)
    (inp : List Nat) (cap : Nat) (final : Bool) :
    decStep C st inp cap final =
      .ok (st.obuf.take cap, 0, { st with obuf := st.obuf.drop cap },
           if st.obuf.length ≤ cap then .underflow else .overflow) := by
  simp [decStep, hfin]

/-- Final-mode decryption of input that is not a whole positive number of
blocks fails with the invalid-length diagnostic. -/
theorem decStep_final_badlen (C : Cipher) (ch s : List Nat) (cap : Nat)
    (h : s.length % C.bs ≠ 0 ∨ s.length = 0) :
    decStep C ⟨ch, [], [], false⟩ s cap true = .error .invalidLength := by
  simp only [decStep, Bool.false_eq_true, if_false, if_true, List.nil_append,
    List.length_nil, Nat.not_lt_zero, decide_True, decide_False]
  rw [if_pos h]

/-- Final-mode decryption whose decrypted bytes fail padding validation
reports the invalid-padding diagnostic. -/
theorem decStep_final_badpad (C : Cipher) (ch s : List Nat) (cap : Nat)
    (hlen : s.length % C.bs = 0) (hs : s ≠ [])
    (hpad : unpadTail C.bs (cbcDecB C ch (fullChunks C.bs s)).1.flatten = none) :
    decStep C ⟨ch, [], [], false⟩ s cap true = .error .invalidPadding := by
  simp only [decStep, Bool.false_eq_true, if_false, if_true, List.nil_append,
    List.length_nil, Nat.not_lt_zero, decide_True, decide_False, hpad]
  rw [if_neg (by simp [hlen, List.length_eq_zero, hs])]

/-- Final-mode decryption of a whole positive number of blocks with valid
padding delivers the stripped plaintext (capped by the caller's buffer) and
finishes the engine. -/
theorem decStep_final_ok (C : Cipher) (ch s : List Nat) (cap : Nat) (q : List Nat)
    (hlen : s.length % C.bs = 0) (hs : s ≠ [])
    (hpad : unpadTail C.bs (cbcDecB C ch (fullChunks C.bs s)).1.flatten = some q) :
    decStep C ⟨ch, [], [], false⟩ s cap true =
      if q.length ≤ cap then
        .ok (q, s.length, ⟨(cbcDecB C ch (fullChunks C.bs s)).2, [], [], true⟩, .underflow)
      else
        .ok (q.take cap, s.length, ⟨(cbcDecB C ch (fullChunks C.bs s)).2, [], q.drop cap, true⟩,
             .overflow) := by
  simp only [decStep, Bool.false_eq_true, if_false, if_true, List.nil_append,
    List.length_nil, Nat.not_lt_zero, decide_True, decide_False, hpad]
  rw [if_neg (by simp [hlen, List.length_eq_zero, hs])]

/-- A read on a reader whose engine has finished and whose source is exhausted
only drains pending engine output into the caller's buffer. -/
theorem readDecrypt_drain (C : Cipher) (src : Src) (ch ib ob iv0 : List Nat) (B : Nat) :
    readDecrypt C ⟨src, ⟨ch, ib, ob, true⟩, iv0, [], true⟩ B =
      .ok (min ob.length B, ob.take B, ⟨src, ⟨ch, ib, ob.drop B, true⟩, iv0, [], true⟩) := by
  simp only [readDecrypt, decStep_finished C ⟨ch, ib, ob, true⟩ rfl [] B true]
  by_cases h : ob.length ≤ B
  · rw [if_pos h]
    simp only [List.drop_nil, List.length_take, if_true]
    rw [Nat.min_comm B ob.length]
  · rw [if_neg h]
    simp only [List.drop_nil]
    rw [min_eq_right (by omega)]

/-- Reading to exhaustion from a finished reader delivers exactly the pending
engine output. -/
theorem readToEnd_drain (C : Cipher) (B : Nat) (hB : 0 < B) :
    ∀ (fuel : Nat) (src : Src) (ch ib ob iv0 : List Nat), ob.length + 2 ≤ fuel →
      readToEnd C fuel ⟨src, ⟨ch, ib, ob, true⟩, iv0, [], true⟩ B = .ok ob := by
  intro fuel
  induction fuel with
  | zero =>
    intro src ch ib ob iv0 hf
    omega
  | succ fuel ih =>
    intro src ch ib ob iv0 hf
    simp only [readToEnd, readDecrypt_drain]
    by_cases h0 : min ob.length B = 0
    · have hob : ob = [] := by
        rcases Nat.min_eq_zero_iff.mp h0 with h | h
        · exact List.eq_nil_of_length_eq_zero h
        · omega
      rw [if_pos h0, hob]
    · rw [if_neg h0]
      by_cases h : ob.length ≤ B
      · have h1 : ob.drop B = [] := List.drop_of_length_le h
        rw [h1, ih src ch ib [] iv0 (by simp only [List.length_nil]; omega), min_eq_left h]
        simp [List.take_of_length_le h, List.take_length]
      · rw [ih src ch ib (ob.drop B) iv0 (by simp only [List.length_drop]; omega),
          min_eq_right (by omega)]
        simp [List.take_take, List.take_append_drop]

/-- The first read on a pre-read reader (idle engine, empty pending buffer, no
eof) whose source remainder fits one 8192-byte fill and decrypts cleanly: the
whole remainder is pulled and final-decrypted, min(plaintext, B) is reported,
and the engine finishes holding the surplus plaintext. -/
theorem readDecrypt_first_ok (C : Cipher) (data : List Nat) (pos : Nat) (ch iv0 : List Nat)
    (B : Nat) (q : List Nat)
    (hs0 : data.drop pos ≠ []) (hs8 : (data.drop pos).length ≤ bufferSize)
    (hlen : (data.drop pos).length % C.bs = 0)
    (hpad : unpadTail C.bs (cbcDecB C ch (fullChunks C.bs (data.drop pos))).1.flatten = some q) :
    readDecrypt C ⟨⟨data, pos⟩, ⟨ch, [], [], false⟩, iv0, [], false⟩ B =
      .ok (min q.length B, q.take B,
           ⟨⟨data, pos + (data.drop pos).length⟩,
            ⟨(cbcDecB C ch (fullChunks C.bs (data.drop pos))).2, [], q.drop B, true⟩,
            iv0, [], true⟩) := by
  have htake : (data.drop pos).take bufferSize = data.drop pos := List.take_of_length_le hs8
  have hmin : min bufferSize (data.drop pos).length = (data.drop pos).length := min_eq_right hs8
  have hrem2 : data.drop (pos + (data.drop pos).length) = [] := by
    rw [← List.drop_drop, List.drop_length]
  have hne : (data.drop pos).isEmpty = false := by
    rw [Bool.eq_false_iff]
    intro h
    exact hs0 (List.isEmpty_iff.mp h)
  have hfin := decStep_final_ok C ch (data.drop pos) B q hlen hs0 hpad
  by_cases hq : q.length ≤ B
  · rw [if_pos hq] at hfin
    simp only [readDecrypt, readLoop, decStep_idle, fillBufS, Src.rem, List.drop_nil,
      List.isEmpty_nil, List.length_nil, Nat.sub_zero, htake, hmin, hrem2, hne,
      Bool.false_eq_true, if_false, if_true, List.take_nil, Nat.min_zero, Nat.add_zero,
      hfin, Nat.zero_add, List.drop_length, List.append_nil, List.nil_append,
      Bool.true_eq_false, and_false, min_eq_left hq, List.take_of_length_le hq,
      List.drop_of_length_le hq]
  · rw [if_neg hq] at hfin
    simp only [readDecrypt, readLoop, decStep_idle, fillBufS, Src.rem, List.drop_nil,
      List.isEmpty_nil, List.length_nil, Nat.sub_zero, htake, hmin, hrem2, hne,
      Bool.false_eq_true, if_false, if_true, List.take_nil, Nat.min_zero, Nat.add_zero,
      hfin, Nat.zero_add, List.drop_length, List.append_nil, List.nil_append,
      Bool.true_eq_false, and_false, List.length_take, min_eq_right (le_of_not_le hq),
      Nat.min_comm B q.length]

/-- The first read on a pre-read reader whose source remainder is a nonzero
non-multiple of the block size fails with the invalid-length codec error. -/
theorem readDecrypt_first_badlen (C : Cipher) (data : List Nat) (pos : Nat) (ch iv0 : List Nat)
    (B : Nat)
    (hs0 : data.drop pos ≠ []) (hs8 : (data.drop pos).length ≤ bufferSize)
    (hlen : (data.drop pos).length % C.bs ≠ 0) :
    readDecrypt C ⟨⟨data, pos⟩, ⟨ch, [], [], false⟩, iv0, [], false⟩ B =
      .error (.codec .invalidLength) := by
  have htake : (data.drop pos).take bufferSize = data.drop pos := List.take_of_length_le hs8
  have hmin : min bufferSize (data.drop pos).length = (data.drop pos).length := min_eq_right hs8
  have hrem2 : data.drop (pos + (data.drop pos).length) = [] := by
    rw [← List.drop_drop, List.drop_length]
  have hne : (data.drop pos).isEmpty = false := by
    rw [Bool.eq_false_iff]
    intro h
    exact hs0 (List.isEmpty_iff.mp h)
  have hfin := decStep_final_badlen C ch (data.drop pos) B (Or.inl hlen)
  simp only [readDecrypt, readLoop, decStep_idle, fillBufS, Src.rem, List.drop_nil,
    List.isEmpty_nil, List.length_nil, Nat.sub_zero, htake, hmin, hrem2, hne,
    Bool.false_eq_true, if_false, if_true, List.take_nil, Nat.min_zero, Nat.add_zero,
    hfin]

/-- The first read on a pre-read reader whose source remainder decrypts to
bytes with invalid padding fails with the invalid-padding codec error. -/
theorem readDecrypt_first_badpad (C : Cipher) (data : List Nat) (pos : Nat) (ch iv0 : List Nat)
    (B : Nat)
    (hs0 : data.drop pos ≠ []) (hs8 : (data.drop pos).length ≤ bufferSize)
    (hlen : (data.drop pos).length % C.bs = 0)
    (hpad : unpadTail C.bs (cbcDecB C ch (fullChunks C.bs (data.drop pos))).1.flatten = none) :
    readDecrypt C ⟨⟨data, pos⟩, ⟨ch, [], [], false⟩, iv0, [], false⟩ B =
      .error (.codec .invalidPadding) := by
  have htake : (data.drop pos).take bufferSize = data.drop pos := List.take_of_length_le hs8
  have hmin : min bufferSize (data.drop pos).length = (data.drop pos).length := min_eq_right hs8
  have hrem2 : data.drop (pos + (data.drop pos).length) = [] := by
    rw [← List.drop_drop, List.drop_length]
  have hne : (data.drop pos).isEmpty = false := by
    rw [Bool.eq_false_iff]
    intro h
    exact hs0 (List.isEmpty_iff.mp h)
  have hfin := decStep_final_badpad C ch (data.drop pos) B hlen hs0 hpad
  simp only [readDecrypt, readLoop, decStep_idle, fillBufS, Src.rem, List.drop_nil,
    List.isEmpty_nil, List.length_nil, Nat.sub_zero, htake, hmin, hrem2, hne,
    Bool.false_eq_true, if_false, if_true, List.take_nil, Nat.min_zero, Nat.add_zero,
    hfin]

/-- Reading to exhaustion from a pre-read reader whose source remainder fits
one fill and decrypts cleanly delivers exactly the stripped plaintext. -/
theorem readToEnd_first (C : Cipher) (data : List Nat) (pos : Nat) (ch iv0 : List Nat)
    (B : Nat) (q : List Nat) (fuel : Nat) (hB : 0 < B)
    (hs0 : data.drop pos ≠ []) (hs8 : (data.drop pos).length ≤ bufferSize)
    (hlen : (data.drop pos).length % C.bs = 0)
    (hpad : unpadTail C.bs (cbcDecB C ch (fullChunks C.bs (data.drop pos))).1.flatten = some q)
    (hfuel : q.length + 3 ≤ fuel) :
    readToEnd C fuel ⟨⟨data, pos⟩, ⟨ch, [], [], false⟩, iv0, [], false⟩ B = .ok q := by
  obtain ⟨fuel, rfl⟩ : ∃ f, fuel = f + 1 := ⟨fuel - 1, by omega⟩
  simp only [readToEnd, readDecrypt_first_ok C data pos ch iv0 B q hs0 hs8 hlen hpad]
  by_cases h0 : min q.length B = 0
  · have hq : q = [] := by
      rcases Nat.min_eq_zero_iff.mp h0 with h | h
      · exact List.eq_nil_of_length_eq_zero h
      · omega
    rw [if_pos h0, hq]
  · rw [if_neg h0,
      readToEnd_drain C B hB fuel _ _ _ (q.drop B) _ (by simp only [List.length_drop]; omega)]
    by_cases h : q.length ≤ B
    · rw [List.drop_of_length_le h, min_eq_left h,
        List.take_of_length_le h, List.take_of_length_le (le_refl q.length)]
      simp
    · rw [min_eq_right (by omega), List.take_take, min_self]
      simp [List.take_append_drop]

/-- Reading to exhaustion surfaces the invalid-length codec error of a
truncated stream. -/
theorem readToEnd_first_badlen (C : Cipher) (data : List Nat) (pos : Nat) (ch iv0 : List Nat)
    (B : Nat) (fuel : Nat) (hfuel : 0 < fuel)
    (hs0 : data.drop pos ≠ []) (hs8 : (data.drop pos).length ≤ bufferSize)
    (hlen : (data.drop pos).length % C.bs ≠ 0) :
    readToEnd C fuel ⟨⟨data, pos⟩, ⟨ch, [], [], false⟩, iv0, [], false⟩ B =
      .error (.codec .invalidLength) := by
  obtain ⟨fuel, rfl⟩ : ∃ f, fuel = f + 1 := ⟨fuel - 1, by omega⟩
  simp only [readToEnd, readDecrypt_first_badlen C data pos ch iv0 B hs0 hs8 hlen]

/-- Reading to exhaustion surfaces the invalid-padding codec error of a
corrupted stream. -/
theorem readToEnd_first_badpad (C : Cipher) (data : List Nat) (pos : Nat) (ch iv0 : List Nat)
    (B : Nat) (fuel : Nat) (hfuel : 0 < fuel)
    (hs0 : data.drop pos ≠ []) (hs8 : (data.drop pos).length ≤ bufferSize)
    (hlen : (data.drop pos).length % C.bs = 0)
    (hpad : unpadTail C.bs (cbcDecB C ch (fullChunks C.bs (data.drop pos))).1.flatten = none) :
    readToEnd C fuel ⟨⟨data, pos⟩, ⟨ch, [], [], false⟩, iv0, [], false⟩ B =
      .error (.codec .invalidPadding) := by
  obtain ⟨fuel, rfl⟩ : ∃ f, fuel = f + 1 := ⟨fuel - 1, by omega⟩
  simp only [readToEnd, readDecrypt_first_badpad C data pos ch iv0 B hs0 hs8 hlen hpad]

/-- Decrypting the block-aligned remainder of the stream from the chaining
value reached after m blocks yields the tail of the fully decrypted stream. -/
theorem cbcDec_suffix (C : Cipher) (chain0 c : List Nat) (hch0 : chain0.length = C.bs)
    (m : Nat) (hmod : c.length % C.bs = 0) (hm : C.bs * m ≤ c.length) :
    (cbcDecB C (cbcDecB C chain0 (fullChunks C.bs (c.take (C.bs * m)))).2
        (fullChunks C.bs (c.drop (C.bs * m)))).1.flatten =
      (cbcDecB C chain0 (fullChunks C.bs c)).1.flatten.drop (C.bs * m) := by
  have hbs := C.bs_pos
  have hK : C.bs * (c.length / C.bs) = c.length := by
    have := Nat.div_add_mod c.length C.bs
    omega
  have hm2 : m ≤ c.length / C.bs := by
    apply Nat.le_of_mul_le_mul_left _ hbs
    rw [hK]
    exact hm
  have hmj : m + (c.length / C.bs - m) = c.length / C.bs := by omega
  have hseg := cbcDec_segment C chain0 c hch0 m (c.length / C.bs - m) (by omega)
  have hlen_drop : (c.drop (C.bs * m)).length = (c.length / C.bs - m) * C.bs := by
    simp only [List.length_drop]
    have h2 : C.bs * (m + (c.length / C.bs - m)) = c.length := by rw [hmj, hK]
    have h3 : C.bs * (m + (c.length / C.bs - m)) =
        C.bs * m + C.bs * (c.length / C.bs - m) := Nat.mul_add _ _ _
    have h4 : C.bs * (c.length / C.bs - m) = (c.length / C.bs - m) * C.bs := Nat.mul_comm _ _
    omega
  have htk : (c.drop (C.bs * m)).take ((c.length / C.bs - m) * C.bs) = c.drop (C.bs * m) := by
    rw [← hlen_drop]
    exact List.take_length _
  rw [← htk, hseg.1, hmj]
  have hPlen : (cbcDecB C chain0 (fullChunks C.bs c)).1.flatten.length =
      C.bs * (c.length / C.bs) := by
    rw [decFlatten_length C chain0 hch0 _ (fullChunks_mem_length _ _), fullChunks_count C.bs hbs]
  rw [show C.bs * (c.length / C.bs) =
    (cbcDecB C chain0 (fullChunks C.bs c)).1.flatten.length from hPlen.symm, List.take_length]

/-- The chaining value after decrypting m whole blocks (m at least 1) is the
m-th ciphertext block itself. -/
theorem cbcDec_chain_block (C : Cipher) (ch c : List Nat) (m : Nat) (hm : 1 ≤ m)
    (hmc : C.bs * m ≤ c.length) :
    (cbcDecB C ch (fullChunks C.bs (c.take (C.bs * m)))).2 =
      (c.drop (C.bs * (m - 1))).take C.bs := by
  have hbs := C.bs_pos
  obtain ⟨n, rfl⟩ : ∃ n, m = n + 1 := ⟨m - 1, by omega⟩
  have hmul : C.bs * (n + 1) = C.bs * n + C.bs := by ring
  have hlen_take : (c.take (C.bs * (n + 1))).length = C.bs * (n + 1) := by
    simp only [List.length_take]
    omega
  have hsplit := fullChunks_split C.bs hbs (c.take (C.bs * (n + 1))) n (by omega)
  have hblock : (c.take (C.bs * (n + 1))).drop (C.bs * n) = (c.drop (C.bs * n)).take C.bs := by
    rw [List.drop_take]
    congr 1
    omega
  have hblen : ((c.drop (C.bs * n)).take C.bs).length = C.bs := by
    simp only [List.length_take, List.length_drop]
    omega
  have hone : fullChunks C.bs ((c.drop (C.bs * n)).take C.bs) =
      [(c.drop (C.bs * n)).take C.bs] := by
    rw [fullChunks_step C.bs _ hbs (by omega)]
    rw [List.take_of_length_le (le_of_eq hblen), List.drop_of_length_le (le_of_eq hblen),
      fullChunks_nil]
  rw [hsplit, hblock, hone, cbcDecB_append, cbcDecB_cons]
  simp

/-- read_exact of zero bytes is a no-op. -/
theorem readExact_zero (C : Cipher) (fuel : Nat) (st : ReaderSt) :
    readExact C (fuel + 1) st 0 = .ok ([], st) := by
  simp [readExact]

/-- read_exact of 1 ≤ off ≤ |q| bytes from a pre-read reader delivers the
first off plaintext bytes and leaves the engine finished with the surplus. -/
theorem readExact_skip (C : Cipher) (data : List Nat) (pos : Nat) (ch iv0 : List Nat)
    (off : Nat) (q : List Nat) (h1 : 1 ≤ off)
    (hs0 : data.drop pos ≠ []) (hs8 : (data.drop pos).length ≤ bufferSize)
    (hlen : (data.drop pos).length % C.bs = 0)
    (hpad : unpadTail C.bs (cbcDecB C ch (fullChunks C.bs (data.drop pos))).1.flatten = some q)
    (hoffq : off ≤ q.length) :
    readExact C (off + 1) ⟨⟨data, pos⟩, ⟨ch, [], [], false⟩, iv0, [], false⟩ off =
      .ok (q.take off,
           ⟨⟨data, pos + (data.drop pos).length⟩,
            ⟨(cbcDecB C ch (fullChunks C.bs (data.drop pos))).2, [], q.drop off, true⟩,
            iv0, [], true⟩) := by
  obtain ⟨o, rfl⟩ : ∃ o, off = o + 1 := ⟨off - 1, by omega⟩
  simp only [readExact, readDecrypt_first_ok C data pos ch iv0 (o + 1) q hs0 hs8 hlen hpad,
    min_eq_right hoffq, if_neg (Nat.succ_ne_zero o), Nat.sub_self]
  simp [List.take_take]

/-- The SeekFrom::Start arm with target in the first block: seek the source to
0, reset the engine to the stored IV, clear buffer and eof, then skip
offset % bs bytes. -/
theorem seekStart_eq0 (C : Cipher) (st : ReaderSt) (offset : Nat)
    (h0 : offset / C.bs = 0) :
    seekStart C st offset =
      match readExact C (offset % C.bs + 1)
          ⟨⟨st.src.data, 0⟩, ⟨st.iv, [], [], false⟩, st.iv, [], false⟩ (offset % C.bs) with
      | .error e => .error e
      | .ok r => .ok (offset, r.2) := by
  simp only [seekStart, srcSeek, h0, if_true, resetDec]

/-- The SeekFrom::Start arm with target past the first block: seek the source
to the preceding block, read that block and reset the engine chain to it,
clear buffer and eof, then skip offset % bs bytes. -/
theorem seekStart_eq1 (C : Cipher) (st : ReaderSt) (offset : Nat)
    (h0 : offset / C.bs ≠ 0)
    (hrem : C.bs ≤ (st.src.data.drop ((offset / C.bs - 1) * C.bs)).length) :
    seekStart C st offset =
      match readExact C (offset % C.bs + 1)
          ⟨⟨st.src.data, (offset / C.bs - 1) * C.bs + C.bs⟩,
           ⟨(st.src.data.drop ((offset / C.bs - 1) * C.bs)).take C.bs, [], [], false⟩,
           st.iv, [], false⟩ (offset % C.bs) with
      | .error e => .error e
      | .ok r => .ok (offset, r.2) := by
  simp only [seekStart, srcSeek, if_neg h0, resetDec, Src.rem,
    if_neg (by omega : ¬ (st.src.data.drop ((offset / C.bs - 1) * C.bs)).length < C.bs)]

/-- Decrypting a writer-produced ciphertext block stream recovers the padded
plaintext. -/
theorem decEnc_flatten (C : Cipher) (iv p : List Nat) (hiv : iv.length = C.bs) :
    (cbcDecB C iv (fullChunks C.bs
        (cbcEncB C iv (fullChunks C.bs (padMsg C.bs p))).1.flatten)).1.flatten =
      padMsg C.bs p := by
  have hbs := C.bs_pos
  have hxs := fullChunks_mem_length C.bs (padMsg C.bs p)
  have hbl := (cbcEncB_blocks_length C iv (fullChunks C.bs (padMsg C.bs p)) hiv hxs).1
  have hfc : fullChunks C.bs (cbcEncB C iv (fullChunks C.bs (padMsg C.bs p))).1.flatten =
      (cbcEncB C iv (fullChunks C.bs (padMsg C.bs p))).1 := by
    have h2 := fullChunks_join_uniform C.bs hbs _ [] hbl (by simpa using hbs)
    simpa using h2
  rw [hfc, cbcDecB_cbcEncB C iv _ hiv hxs]
  exact (flatten_fullChunks_exact C.bs hbs (padMsg C.bs p) (p.length / C.bs + 1)
    (padMsg_length C.bs hbs p)).1

/-- The writer-produced ciphertext has the length of the padded plaintext. -/
theorem encFlatten_c_length (C : Cipher) (iv p : List Nat) (hiv : iv.length = C.bs) :
    (cbcEncB C iv (fullChunks C.bs (padMsg C.bs p))).1.flatten.length =
      (padMsg C.bs p).length := by
  rw [encFlatten_length C iv hiv _ (fullChunks_mem_length _ _),
    fullChunks_count C.bs C.bs_pos, padMsg_length C.bs C.bs_pos,
    Nat.mul_div_cancel_left _ C.bs_pos]

/-- With a ciphertext one block longer than the 8192-byte read-ahead buffer,
reading to exhaustion with an 8192-byte caller buffer silently loses the final
plaintext block: the speculative decrypt of the tail delivers its bytes and
consumes the pending buffer, the next fill hits end-of-stream, and read
reports 0 before any final-mode call runs. -/
theorem readToEnd_large_truncates (C : Cipher) (iv p : List Nat) (hiv : iv.length = C.bs)
    (hdvd : C.bs ∣ bufferSize) (h2bs : C.bs + C.bs ≤ bufferSize)
    (hp : p.length = bufferSize) (fuel : Nat) (hfuel : 2 ≤ fuel) :
    readToEnd C fuel
      (readerNew (cbcEncB C iv (fullChunks C.bs (padMsg C.bs p))).1.flatten iv) bufferSize =
      .ok (p.take (bufferSize - C.bs)) := by
  have hbs := C.bs_pos
  have hbufpos : 0 < bufferSize := by decide
  obtain ⟨K, hK⟩ := hdvd
  have hpadlen : (padMsg C.bs p).length = bufferSize + C.bs := by
    rw [padMsg_length C.bs hbs p, hp, hK, Nat.mul_div_cancel_left _ hbs, Nat.mul_add,
      Nat.mul_one, ← hK]
  have hPdef : (cbcDecB C iv (fullChunks C.bs
      (cbcEncB C iv (fullChunks C.bs (padMsg C.bs p))).1.flatten)).1.flatten =
      padMsg C.bs p := decEnc_flatten C iv p hiv
  have hclen : (cbcEncB C iv (fullChunks C.bs (padMsg C.bs p))).1.flatten.length =
      bufferSize + C.bs := by
    rw [encFlatten_c_length C iv p hiv, hpadlen]
  generalize hc : (cbcEncB C iv (fullChunks C.bs (padMsg C.bs p))).1.flatten = c
    at hPdef hclen ⊢
  have hinplen : (c.take bufferSize).length = bufferSize := by
    rw [List.length_take]
    omega
  -- first call: the loop's speculative decrypt of the first 8192 bytes
  obtain ⟨out, cons, dec2, res, m2, hstep, hm2a, hm2b, hm2c, hout, houtlen, hcons, hfin2,
      hch2, hcat2, hib2, hob2, hd2, hovf, hunf⟩ :=
    decStep_nonfinal_char C iv c hiv ⟨iv, [], [], false⟩ (c.take bufferSize)
      (c.drop bufferSize) bufferSize 0 0 rfl
      (by simp [fullChunks_nil]) (by simp) (by simp) (by simp) (by simp) (by simp)
  have hm2top : C.bs * m2 ≤ bufferSize - 1 := by
    have h := hm2c (by simp only [List.length_nil, hinplen]; omega)
    simp only [List.length_nil, hinplen, Nat.mul_zero, Nat.zero_add] at h
    omega
  have hres : res = BufRes.underflow := by
    cases res with
    | overflow =>
      exfalso
      obtain ⟨hlen8, _⟩ := hovf rfl
      rw [houtlen] at hlen8
      omega
    | underflow => rfl
  subst hres
  obtain ⟨hconsAll, hobE, hdsum⟩ := hunf rfl
  have hdropT : (c.take bufferSize).drop cons = [] := by
    rw [hconsAll, List.drop_length]
  have hcat3 : dec2.ibuf ++ c.drop bufferSize = c.drop (C.bs * m2) := by
    have h := hcat2
    rw [hdropT, List.nil_append] at h
    exact h
  have hiblen2 : dec2.ibuf.length = bufferSize - C.bs * m2 := by
    have h := congrArg List.length hcat3
    simp only [List.length_append, List.length_drop] at h
    omega
  have hm2eq : C.bs * m2 = bufferSize - C.bs := by
    have hmK : m2 < K := by
      by_contra h
      push_neg at h
      have h2 := Nat.mul_le_mul_left C.bs h
      rw [← hK] at h2
      omega
    have hmK1 : K - 1 ≤ m2 := by
      by_contra h
      push_neg at h
      have h2 : m2 ≤ K - 2 := by omega
      have h3 := Nat.mul_le_mul_left C.bs h2
      have h4 : C.bs * (K - 2) = C.bs * K - C.bs * 2 := by rw [Nat.mul_sub]
      have h5 : C.bs * 2 = C.bs + C.bs := by ring
      rw [h4, ← hK] at h3
      omega
    have hm2K : m2 = K - 1 := by omega
    rw [hm2K, Nat.mul_sub, Nat.mul_one, ← hK]
  have houtlen2 : out.length = bufferSize - C.bs := by
    rw [houtlen, hm2eq]
    omega
  have hout0 : ¬ out.length = 0 := by
    rw [houtlen2]
    omega
  -- plumbing facts for the first call's fills
  have hminc : min bufferSize c.length = bufferSize := min_eq_left (by omega)
  have hdropb : (c.drop bufferSize).length = C.bs := by
    rw [List.length_drop]
    omega
  have htake2 : (c.drop bufferSize).take bufferSize = c.drop bufferSize :=
    List.take_of_length_le (by omega)
  have hmin2 : min bufferSize (c.drop bufferSize).length = C.bs := by
    rw [hdropb]
    exact min_eq_right (by omega)
  have htb_ne : (c.take bufferSize).isEmpty = false := by
    rw [Bool.eq_false_iff]
    intro h
    have h2 := congrArg List.length (List.isEmpty_iff.mp h)
    rw [hinplen] at h2
    simp [bufferSize] at h2
  have hdropb_ne : (c.drop bufferSize).isEmpty = false := by
    rw [Bool.eq_false_iff]
    intro h
    have h2 := congrArg List.length (List.isEmpty_iff.mp h)
    rw [hdropb] at h2
    simp at h2
    omega
  have hloop : ∀ fl, readLoop C (fl + 1) ⟨iv, [], [], false⟩ (c.take bufferSize)
      ⟨c, bufferSize⟩ 0 bufferSize =
      .ok (out.length, out, dec2, c.drop bufferSize, ⟨c, bufferSize + C.bs⟩, false) := by
    intro fl
    simp only [readLoop, fillBufS, Src.rem, htake2, hdropb_ne, hstep, hmin2,
      Bool.false_eq_true, eq_self_iff_true, and_false, if_false, Nat.zero_add,
      hdropT, List.nil_append, and_true, if_neg hout0]
  have hcall1 : readDecrypt C (readerNew c iv) bufferSize =
      .ok (out.length, out, ⟨⟨c, bufferSize + C.bs⟩, dec2, iv, c.drop bufferSize, false⟩) := by
    simp only [readDecrypt, readerNew, decStep_idle, List.drop_nil, List.isEmpty_nil, if_true,
      fillBufS, Src.rem, List.drop_zero, hminc, Nat.zero_add, htb_ne, Bool.false_eq_true,
      if_false, List.length_nil, Nat.sub_zero, hloop, List.nil_append]
  -- second call: the speculative decrypt of the held-back tail
  have hobwin : dec2.obuf = ((cbcDecB C iv (fullChunks C.bs c)).1.flatten.take
      (C.bs * m2)).drop (C.bs * m2) := by
    rw [hobE]
    symm
    apply List.drop_of_length_le
    rw [List.length_take]
    exact min_le_left _ _
  obtain ⟨out2, cons2, dec3, res2, m3, hstep2, hm3a, hm3b, hm3c, hout2, houtlen2b, hcons2,
      hfin3, hch3, hcat4, hib3, hob3, hd3, hovf2, hunf2⟩ :=
    decStep_nonfinal_char C iv c hiv dec2 (c.drop bufferSize) [] bufferSize (C.bs * m2) m2
      hfin2 hch2 (by rw [List.append_nil]; exact hcat3) hib2 hobwin le_rfl (by omega)
  have hm3top : C.bs * m3 ≤ bufferSize + C.bs - 1 := by
    have h := hm3c (by rw [hiblen2, hdropb]; omega)
    rw [hiblen2, hdropb] at h
    omega
  have hres2 : res2 = BufRes.underflow := by
    cases res2 with
    | overflow =>
      exfalso
      obtain ⟨hlen8, _⟩ := hovf2 rfl
      rw [houtlen2b] at hlen8
      omega
    | underflow => rfl
  subst hres2
  obtain ⟨hcons2All, hobE2, hdsum2⟩ := hunf2 rfl
  have hdrop2 : (c.drop bufferSize).drop cons2 = [] := by
    rw [hcons2All, List.drop_length]
  have hm3eq : C.bs * m3 = bufferSize := by
    have hcat5 : dec3.ibuf = c.drop (C.bs * m3) := by
      have h := hcat4
      rw [hdrop2, List.nil_append, List.append_nil] at h
      exact h
    have hlen5 := congrArg List.length hcat5
    rw [List.length_drop] at hlen5
    have hup : m3 ≤ K := by
      by_contra h
      push_neg at h
      have h2 : K + 1 ≤ m3 := h
      have h3 := Nat.mul_le_mul_left C.bs h2
      have h4 : C.bs * (K + 1) = C.bs * K + C.bs := by ring
      rw [h4, ← hK] at h3
      omega
    have hlo : K ≤ m3 := by
      by_contra h
      push_neg at h
      have h2 : m3 ≤ K - 1 := by omega
      have h3 := Nat.mul_le_mul_left C.bs h2
      have h4 : C.bs * (K - 1) = C.bs * K - C.bs := by rw [Nat.mul_sub, Nat.mul_one]
      rw [h4, ← hK] at h3
      omega
    have h5 : m3 = K := by omega
    rw [h5, ← hK]
  have hrem3 : c.drop (bufferSize + C.bs) = [] := List.drop_of_length_le (by omega)
  have hcall2 : readDecrypt C ⟨⟨c, bufferSize + C.bs⟩, dec2, iv, c.drop bufferSize, false⟩
      bufferSize =
      .ok (0, out2, ⟨⟨c, bufferSize + C.bs⟩, dec3, iv, [], true⟩) := by
    simp only [readDecrypt, hstep2, hdrop2, List.isEmpty_nil, if_true, fillBufS, Src.rem,
      hrem3, List.take_nil, List.length_nil, Nat.min_zero, Nat.add_zero, Bool.false_eq_true,
      if_false]
  -- assemble readToEnd: first call delivers, second reports 0 and stops
  obtain ⟨f, rfl⟩ : ∃ f, fuel = f + 1 := ⟨fuel - 1, by omega⟩
  obtain ⟨f2, rfl⟩ : ∃ f2, f = f2 + 1 := ⟨f - 1, by omega⟩
  simp only [readToEnd, hcall1, if_neg hout0, hcall2, eq_self_iff_true, if_true]
  rw [List.take_length, List.append_nil, hout, List.drop_zero, List.take_take,
    min_eq_right (by omega), hm2eq, hPdef]
  rw [show padMsg C.bs p = p ++ List.replicate (C.bs - p.length % C.bs)
    (C.bs - p.length % C.bs) from rfl]
  rw [List.take_append_of_le_length (by omega)]

/-- On the same over-buffer ciphertext, seeking to the second block and
reading the remainder yields the correct plaintext suffix, because the
remainder now fits one fill. -/
theorem seek_read_large (C : Cipher) (iv p : List Nat) (hiv : iv.length = C.bs)
    (hdvd : C.bs ∣ bufferSize) (h2bs : C.bs + C.bs ≤ bufferSize)
    (hp : p.length = bufferSize) (fuel : Nat) (hfuel : bufferSize + 3 ≤ fuel) :
    ∃ st2, readerSeek C
        (readerNew (cbcEncB C iv (fullChunks C.bs (padMsg C.bs p))).1.flatten iv)
        (.start C.bs) = .ok (C.bs, st2) ∧
      readToEnd C fuel st2 bufferSize = .ok (p.drop C.bs) := by
  have hbs := C.bs_pos
  have hbufpos : 0 < bufferSize := by decide
  obtain ⟨K, hK⟩ := hdvd
  have hpadlen : (padMsg C.bs p).length = bufferSize + C.bs := by
    rw [padMsg_length C.bs hbs p, hp, hK, Nat.mul_div_cancel_left _ hbs, Nat.mul_add,
      Nat.mul_one, ← hK]
  have hPdef : (cbcDecB C iv (fullChunks C.bs
      (cbcEncB C iv (fullChunks C.bs (padMsg C.bs p))).1.flatten)).1.flatten =
      padMsg C.bs p := decEnc_flatten C iv p hiv
  have hclen : (cbcEncB C iv (fullChunks C.bs (padMsg C.bs p))).1.flatten.length =
      bufferSize + C.bs := by
    rw [encFlatten_c_length C iv p hiv, hpadlen]
  generalize hc : (cbcEncB C iv (fullChunks C.bs (padMsg C.bs p))).1.flatten = c
    at hPdef hclen ⊢
  have hdiv1 : C.bs / C.bs = 1 := Nat.div_self hbs
  have hmod0 : C.bs % C.bs = 0 := Nat.mod_self _
  have hcmod : c.length % C.bs = 0 := by
    rw [hclen, hK, show C.bs * K + C.bs = C.bs * (K + 1) from by ring]
    exact Nat.mul_mod_right _ _
  have hchain1 : (cbcDecB C iv (fullChunks C.bs (c.take (C.bs * 1)))).2 = c.take C.bs := by
    rw [cbcDec_chain_block C iv c 1 le_rfl (by omega)]
    simp
  have hsufdec : (cbcDecB C (c.take C.bs) (fullChunks C.bs (c.drop C.bs))).1.flatten =
      (padMsg C.bs p).drop C.bs := by
    have h := cbcDec_suffix C iv c hiv 1 hcmod (by omega)
    rw [hchain1, Nat.mul_one] at h
    rw [h, hPdef]
  have hpadsuf : unpadTail C.bs
      ((cbcDecB C (c.take C.bs) (fullChunks C.bs (c.drop C.bs))).1.flatten) =
      some (p.drop C.bs) := by
    rw [hsufdec, unpadTail_drop C.bs hbs (padMsg C.bs p) C.bs (by omega),
      unpad_padMsg C.bs hbs p]
    rfl
  have hslen : (c.drop C.bs).length = bufferSize := by
    rw [List.length_drop]
    omega
  have hsne : c.drop C.bs ≠ [] := by
    intro h
    have h2 := congrArg List.length h
    rw [hslen] at h2
    simp [bufferSize] at h2
  have hsmod : (c.drop C.bs).length % C.bs = 0 := by
    rw [hslen, hK]
    exact Nat.mul_mod_right _ _
  refine ⟨⟨⟨c, C.bs⟩, ⟨c.take C.bs, [], [], false⟩, iv, [], false⟩, ?_, ?_⟩
  · show seekStart C (readerNew c iv) C.bs = _
    rw [seekStart_eq1 C (readerNew c iv) C.bs (by rw [hdiv1]; omega)
      (by rw [hdiv1]; simp only [Nat.sub_self, Nat.zero_mul, List.drop_zero, readerNew]; omega)]
    simp only [readerNew, hdiv1, hmod0, Nat.sub_self, Nat.zero_mul, Nat.zero_add,
      List.drop_zero, readExact_zero]
  · have h := readToEnd_first C c C.bs (c.take C.bs) iv bufferSize (p.drop C.bs) fuel
      hbufpos hsne (by omega) hsmod hpadsuf (by rw [List.length_drop]; omega)
    exact h

/-- The identity block cipher with block size 2, used to evaluate the
adapters on concrete inputs. -/
def idCipher : Cipher where
  bs := 2
  bs_pos := by decide
  encB := id
  decB := id
  encB_length := fun _ h => h
  decB_length := fun _ h => h
  decB_encB := fun _ _ => rfl

/-- C1 (code bug): the roundtrip claim fails for plaintexts whose ciphertext
exceeds the 8192-byte read-ahead buffer.  Writing 8192 bytes through
AesWriter::write and flush, then reading the ciphertext to exhaustion with an
8192-byte caller buffer, yields only the first 8192 - bs plaintext bytes: the
speculative decrypt of the tail delivers its bytes but the following fill
hits end-of-stream and read reports 0, losing the delivered bytes and the
held-back final block. -/
theorem C1_roundtrip_violated (C : Cipher) (iv p : List Nat) (hiv : iv.length = C.bs)
    (hdvd : C.bs ∣ bufferSize) (h2bs : C.bs + C.bs ≤ bufferSize)
    (hp : p.length = bufferSize) (fuel : Nat) (hfuel : 2 ≤ fuel) :
    ∃ w1 w2, writerWrite C (writerNew iv) p = .ok (p.length, w1) ∧
      writerFlush C w1 = .ok w2 ∧
      readToEnd C fuel (readerNew w2.sink iv) bufferSize = .ok (p.take (bufferSize - C.bs)) ∧
      p.take (bufferSize - C.bs) ≠ p := by
  have hbs := C.bs_pos
  have hbufpos : 0 < bufferSize := by decide
  obtain ⟨w1, hw1, hinv⟩ := winv_write C iv hiv (writerNew iv) [] p (winv_init C iv)
  rw [List.nil_append] at hinv
  obtain ⟨w2, hw2, hsink, _, _, _⟩ := winv_flush C iv hiv (by omega) w1 p hinv
  refine ⟨w1, w2, hw1, hw2, ?_, ?_⟩
  · rw [hsink]
    exact readToEnd_large_truncates C iv p hiv hdvd h2bs hp fuel hfuel
  · intro h
    have h2 := congrArg List.length h
    rw [List.length_take, hp] at h2
    omega

theorem C1_roundtrip_violated_witness :
    ∃ w1 w2, writerWrite idCipher (writerNew [0, 0]) (List.replicate bufferSize 0) =
        .ok ((List.replicate bufferSize 0).length, w1) ∧
      writerFlush idCipher w1 = .ok w2 ∧
      readToEnd idCipher 2 (readerNew w2.sink [0, 0]) bufferSize =
        .ok ((List.replicate bufferSize 0).take (bufferSize - idCipher.bs)) ∧
      (List.replicate bufferSize 0).take (bufferSize - idCipher.bs) ≠
        List.replicate bufferSize 0 :=
  C1_roundtrip_violated idCipher [0, 0] (List.replicate bufferSize 0) (by decide)
    (by decide) (by decide) (by simp) 2 (by decide)

/-- C2 (code bug): seek equivalence fails on a well-formed ciphertext longer
than the read-ahead buffer.  Seeking to the second block and reading the
remainder yields the true plaintext suffix, while the suffix of a full
sequential decrypt from position 0 is truncated by the same data-loss bug, so
the two differ. -/
theorem C2_seek_equivalence_violated (C : Cipher) (iv p : List Nat) (hiv : iv.length = C.bs)
    (hdvd : C.bs ∣ bufferSize) (h2bs : C.bs + C.bs ≤ bufferSize)
    (hp : p.length = bufferSize) (fuel : Nat) (hfuel : bufferSize + 3 ≤ fuel) :
    ∃ st2 tail full,
      readToEnd C fuel
        (readerNew (cbcEncB C iv (fullChunks C.bs (padMsg C.bs p))).1.flatten iv) bufferSize =
        .ok full ∧
      readerSeek C
        (readerNew (cbcEncB C iv (fullChunks C.bs (padMsg C.bs p))).1.flatten iv)
        (.start C.bs) = .ok (C.bs, st2) ∧
      readToEnd C fuel st2 bufferSize = .ok tail ∧
      tail ≠ full.drop C.bs := by
  have hbs := C.bs_pos
  have hbufpos : 0 < bufferSize := by decide
  obtain ⟨st2, hseek, hread⟩ := seek_read_large C iv p hiv hdvd h2bs hp fuel hfuel
  refine ⟨st2, p.drop C.bs, p.take (bufferSize - C.bs),
    readToEnd_large_truncates C iv p hiv hdvd h2bs hp fuel (by omega), hseek, hread, ?_⟩
  intro h
  have h2 := congrArg List.length h
  simp only [List.length_drop, List.length_take, hp] at h2
  omega

theorem C2_seek_equivalence_violated_witness :
    ∃ st2 tail full,
      readToEnd idCipher (bufferSize + 3)
        (readerNew (cbcEncB idCipher [0, 0]
          (fullChunks idCipher.bs (padMsg idCipher.bs (List.replicate bufferSize 0)))).1.flatten
          [0, 0]) bufferSize = .ok full ∧
      readerSeek idCipher
        (readerNew (cbcEncB idCipher [0, 0]
          (fullChunks idCipher.bs (padMsg idCipher.bs (List.replicate bufferSize 0)))).1.flatten
          [0, 0]) (.start idCipher.bs) = .ok (idCipher.bs, st2) ∧
      readToEnd idCipher (bufferSize + 3) st2 bufferSize = .ok tail ∧
      tail ≠ full.drop idCipher.bs :=
  C2_seek_equivalence_violated idCipher [0, 0] (List.replicate bufferSize 0) (by decide)
    (by decide) (by decide) (by simp) (bufferSize + 3) (by decide)

/-- C3 (confirmed): AesReader::read's return value.  When the speculative
decrypt of the pending buffer reports overflow, read returns exactly len(buf)
and the unconsumed ciphertext stays in the pending buffer; when it reports
underflow and end-of-stream was already observed, that decrypt ran in final
mode (the final flag is the stored eof flag) and read returns exactly the
byte count it emitted, which may be fewer than len(buf) or 0. -/
theorem C3_read_return_value (C : Cipher) (st : ReaderSt) (B : Nat) (out1 : List Nat)
    (cons1 : Nat) (dec1 : DecState) (res1 : BufRes)
    (h : decStep C st.dec st.buffer B st.eof = .ok (out1, cons1, dec1, res1)) :
    (res1 = .overflow →
      readDecrypt C st B =
        .ok (B, out1, { st with dec := dec1, buffer := st.buffer.drop cons1 })) ∧
    (res1 = .underflow → st.eof = true →
      readDecrypt C st B =
        .ok (out1.length, out1, { st with dec := dec1, buffer := st.buffer.drop cons1 })) := by
  constructor
  · intro hres
    subst hres
    simp only [readDecrypt, h]
  · intro hres heof
    subst hres
    rw [heof] at h
    simp only [readDecrypt, h, heof, eq_self_iff_true, if_true]

theorem C3_read_return_value_witness :
    ((BufRes.underflow = BufRes.overflow →
      readDecrypt idCipher ⟨⟨[], 0⟩, ⟨[0, 0], [], [], true⟩, [0, 0], [], true⟩ 1 =
        .ok (1, [], ⟨⟨[], 0⟩, ⟨[0, 0], [], [], true⟩, [0, 0], [], true⟩)) ∧
    (BufRes.underflow = BufRes.underflow → true = true →
      readDecrypt idCipher ⟨⟨[], 0⟩, ⟨[0, 0], [], [], true⟩, [0, 0], [], true⟩ 1 =
        .ok (([] : List Nat).length, [],
          ⟨⟨[], 0⟩, ⟨[0, 0], [], [], true⟩, [0, 0], [], true⟩))) :=
  C3_read_return_value idCipher ⟨⟨[], 0⟩, ⟨[0, 0], [], [], true⟩, [0, 0], [], true⟩ 1
    [] 0 ⟨[0, 0], [], [], true⟩ .underflow rfl

/-- C4 (confirmed): size law.  The total ciphertext emitted by any sequence
of write calls followed by flush has length bs * (n / bs + 1) where n is the
total plaintext length; encrypting zero bytes yields one block, and an exact
multiple grows by one full block. -/
theorem C4_size_law (C : Cipher) (iv : List Nat) (hiv : iv.length = C.bs)
    (hbs8 : C.bs ≤ bufferSize) (chunks : List (List Nat)) :
    ∃ w1 w2, runWrites C (writerNew iv) chunks = .ok w1 ∧ writerFlush C w1 = .ok w2 ∧
      w2.sink.length = C.bs * (chunks.flatten.length / C.bs + 1) := by
  obtain ⟨w1, hw1, hinv⟩ := winv_runWrites C iv hiv chunks (writerNew iv) [] (winv_init C iv)
  rw [List.nil_append] at hinv
  obtain ⟨w2, hw2, hsink, _, _, _⟩ := winv_flush C iv hiv hbs8 w1 chunks.flatten hinv
  refine ⟨w1, w2, hw1, hw2, ?_⟩
  rw [hsink, encFlatten_c_length C iv _ hiv, padMsg_length C.bs C.bs_pos]

theorem C4_size_law_witness :
    ∃ w1 w2, runWrites idCipher (writerNew [0, 0]) [[5]] = .ok w1 ∧
      writerFlush idCipher w1 = .ok w2 ∧
      w2.sink.length = idCipher.bs * (([[5]] : List (List Nat)).flatten.length / idCipher.bs + 1) :=
  C4_size_law idCipher [0, 0] (by decide) (by decide) [[5]]

/-- C6 (confirmed): the seek algorithm.  AesReader::seek(SeekFrom::Start p)
computes blockIndex = p / bs and blockOffset = p % bs; for blockIndex = 0 it
seeks the source to 0 and resets the chaining value to the stored IV,
otherwise it seeks to (blockIndex - 1) * bs, reads exactly one block and
resets the chaining value to it; in both cases it continues from a state with
empty pending buffer and cleared eof flag, reads and discards exactly
blockOffset plaintext bytes via read_exact, and returns p. -/
theorem C6_seek_start_algorithm (C : Cipher) (st : ReaderSt) (offset : Nat)
    (hrange : offset / C.bs = 0 ∨
      C.bs ≤ (st.src.data.drop ((offset / C.bs - 1) * C.bs)).length) :
    readerSeek C st (.start offset) =
      match readExact C (offset % C.bs + 1)
          ⟨⟨st.src.data, if offset / C.bs = 0 then 0 else (offset / C.bs - 1) * C.bs + C.bs⟩,
           ⟨if offset / C.bs = 0 then st.iv
             else (st.src.data.drop ((offset / C.bs - 1) * C.bs)).take C.bs, [], [], false⟩,
           st.iv, [], false⟩ (offset % C.bs) with
      | .error e => .error e
      | .ok r => .ok (offset, r.2) := by
  show seekStart C st offset = _
  by_cases h0 : offset / C.bs = 0
  · rw [seekStart_eq0 C st offset h0]
    simp only [h0, if_true]
  · rcases hrange with h | h
    · exact absurd h h0
    · rw [seekStart_eq1 C st offset h0 h]
      simp only [h0, if_false]

theorem C6_seek_start_algorithm_witness :
    readerSeek idCipher (readerNew [1, 2, 3, 4] [0, 0]) (.start 2) =
      match readExact idCipher (2 % idCipher.bs + 1)
          ⟨⟨[1, 2, 3, 4],
            if 2 / idCipher.bs = 0 then 0 else (2 / idCipher.bs - 1) * idCipher.bs + idCipher.bs⟩,
           ⟨if 2 / idCipher.bs = 0 then [0, 0]
             else (([1, 2, 3, 4] : List Nat).drop ((2 / idCipher.bs - 1) * idCipher.bs)).take
               idCipher.bs, [], [], false⟩,
           [0, 0], [], false⟩ (2 % idCipher.bs) with
      | .error e => .error e
      | .ok r => .ok (2, r.2) :=
  C6_seek_start_algorithm idCipher (readerNew [1, 2, 3, 4] [0, 0]) 2 (by decide)

/-- C7 (confirmed): post-finalize write rejection.  Once the closed flag is
set (flush completed), every write call is rejected with the closed-adapter
error; no state or sink output is produced by the rejected call, so the
writer is unchanged. -/
theorem C7_write_after_close (C : Cipher) (w : WriterSt) (hw : w.closed = true)
    (buf : List Nat) :
    writerWrite C w buf = .error .closed := by
  rw [writerWrite, if_pos hw]

theorem C7_write_after_close_witness :
    writerWrite idCipher ⟨[2, 2], 1, ⟨[2, 2], [], [], true⟩, true⟩ [7] = .error .closed :=
  C7_write_after_close idCipher ⟨[2, 2], 1, ⟨[2, 2], [], [], true⟩, true⟩ rfl [7]

/-- C8 (confirmed): finalize idempotence.  The first flush on a writer in the
writer invariant performs the final-mode engine call with empty input,
leaving the sink holding the CBC encryption of the padded stream, sets the
closed flag with the sink flushed exactly once, and finishes the engine; a
second flush returns the same state unchanged as a no-op success, so the
closed flag is set exactly once. -/
theorem C8_flush_idempotent (C : Cipher) (iv : List Nat) (hiv : iv.length = C.bs)
    (hbs8 : C.bs ≤ bufferSize) (w : WriterSt) (written : List Nat)
    (h : WInv C iv w written) :
    ∃ w2, writerFlush C w = .ok w2 ∧
      w2.sink = (cbcEncB C iv (fullChunks C.bs (padMsg C.bs written))).1.flatten ∧
      w2.closed = true ∧ w2.flushes = 1 ∧ w2.enc.finished = true ∧
      writerFlush C w2 = .ok w2 := by
  obtain ⟨w2, hw2, hsink, hcl, hfl, hfin⟩ := winv_flush C iv hiv hbs8 w written h
  exact ⟨w2, hw2, hsink, hcl, hfl, hfin, by rw [writerFlush, if_pos hcl]⟩

theorem C8_flush_idempotent_witness :
    ∃ w2, writerFlush idCipher (writerNew [0, 0]) = .ok w2 ∧
      w2.sink = (cbcEncB idCipher [0, 0]
        (fullChunks idCipher.bs (padMsg idCipher.bs []))).1.flatten ∧
      w2.closed = true ∧ w2.flushes = 1 ∧ w2.enc.finished = true ∧
      writerFlush idCipher w2 = .ok w2 :=
  C8_flush_idempotent idCipher [0, 0] (by decide) (by decide) (writerNew [0, 0]) []
    (winv_init idCipher [0, 0])

/-- C9 (confirmed): under the engine contract, both invocations of
encrypt_write on a writer in the writer invariant take the normal exit.
The write-path call (non-final) and the flush-path call (final, empty input)
each return the ok outcome — never the panic branch for overflow-at-eof,
never the failing assert — the write call reports exactly buf.len() bytes
consumed, and flush succeeds. -/
theorem C9_encrypt_write_total (C : Cipher) (iv : List Nat) (hiv : iv.length = C.bs)
    (hbs8 : C.bs ≤ bufferSize) (w : WriterSt) (written buf : List Nat)
    (h : WInv C iv w written) :
    (∃ sink2 enc2, encryptWrite C w.enc buf false = .ok sink2 enc2) ∧
    (∃ sink3 enc3, encryptWrite C w.enc [] true = .ok sink3 enc3) ∧
    (∃ w2, writerWrite C w buf = .ok (buf.length, w2)) ∧
    (∃ w3, writerFlush C w = .ok w3) := by
  obtain ⟨hcl, hfin, hob, hch, hib, hsink, hfl⟩ := h
  have hchlen : w.enc.chain.length = C.bs := by
    rw [hch]
    exact encChain_length C iv hiv _ (fullChunks_mem_length _ _)
  have hiblen : w.enc.ibuf.length < C.bs := by
    rw [hib, List.length_drop]
    have h1 : written.length % C.bs < C.bs := Nat.mod_lt _ C.bs_pos
    have h3 : C.bs * (written.length / C.bs) + written.length % C.bs = written.length :=
      Nat.div_add_mod written.length C.bs
    generalize C.bs * (written.length / C.bs) = A at h3 ⊢
    generalize written.length % C.bs = M at h1 h3
    omega
  have henc := encLoop_nonfinal C (buf.length + w.enc.ibuf.length + w.enc.obuf.length + 1)
    w.enc buf [] hfin hchlen (by omega)
  rw [← encryptWrite] at henc
  have henc2 := encLoop_final C w.enc []
    (([] : List Nat).length + w.enc.ibuf.length + w.enc.obuf.length + 1)
    hfin hob hiblen hchlen hbs8 (by omega)
  rw [← encryptWrite] at henc2
  obtain ⟨w2, hw2, _⟩ := winv_write C iv hiv w written buf
    ⟨hcl, hfin, hob, hch, hib, hsink, hfl⟩
  obtain ⟨w3, hw3, _⟩ := winv_flush C iv hiv hbs8 w written
    ⟨hcl, hfin, hob, hch, hib, hsink, hfl⟩
  exact ⟨⟨_, _, henc⟩, ⟨_, _, henc2⟩, ⟨w2, hw2⟩, ⟨w3, hw3⟩⟩

theorem C9_encrypt_write_total_witness :
    (∃ sink2 enc2, encryptWrite idCipher (writerNew [0, 0]).enc [7, 8, 9] false =
        .ok sink2 enc2) ∧
    (∃ sink3 enc3, encryptWrite idCipher (writerNew [0, 0]).enc [] true =
        .ok sink3 enc3) ∧
    (∃ w2, writerWrite idCipher (writerNew [0, 0]) [7, 8, 9] = .ok (3, w2)) ∧
    (∃ w3, writerFlush idCipher (writerNew [0, 0]) = .ok w3) :=
  C9_encrypt_write_total idCipher [0, 0] (by decide) (by decide) (writerNew [0, 0]) []
    [7, 8, 9] (winv_init idCipher [0, 0])

/-- C10 (confirmed): into_inner returns the underlying reader as-is, with no
restoration of the source cursor: after a single read the cursor has advanced
by the whole read-ahead pull (the full source remainder here) even though
only min(plaintext, B) bytes were reported, so the returned reader's cursor
is ahead of the position corresponding to the delivered plaintext and the
already-pulled bytes are lost. -/
theorem C10_into_inner_discards (C : Cipher) (data : List Nat) (pos : Nat)
    (ch iv0 : List Nat) (B : Nat) (q : List Nat)
    (hs0 : data.drop pos ≠ []) (hs8 : (data.drop pos).length ≤ bufferSize)
    (hlen : (data.drop pos).length % C.bs = 0)
    (hpad : unpadTail C.bs (cbcDecB C ch (fullChunks C.bs (data.drop pos))).1.flatten =
      some q) :
    ∃ n out st2,
      readDecrypt C ⟨⟨data, pos⟩, ⟨ch, [], [], false⟩, iv0, [], false⟩ B =
        .ok (n, out, st2) ∧
      readerIntoInner st2 = st2.src ∧
      st2.src.pos = pos + (data.drop pos).length ∧
      n = min q.length B :=
  ⟨_, _, _, readDecrypt_first_ok C data pos ch iv0 B q hs0 hs8 hlen hpad, rfl, rfl, rfl⟩

theorem C10_into_inner_discards_witness :
    ∃ n out st2,
      readDecrypt idCipher ⟨⟨[5, 1], 0⟩, ⟨[0, 0], [], [], false⟩, [0, 0], [], false⟩ 1 =
        .ok (n, out, st2) ∧
      readerIntoInner st2 = st2.src ∧
      st2.src.pos = 0 + (([5, 1] : List Nat).drop 0).length ∧
      n = min ([5] : List Nat).length 1 :=
  C10_into_inner_discards idCipher [5, 1] 0 [0, 0] [0, 0] 1 [5] (by decide) (by decide)
    (by decide) (by decide)

/-- C5 (corrected): truncating a writer-produced ciphertext to a nonzero
length that is not a multiple of the block size makes reading fail with the
invalid-length codec error, provided the ciphertext fits in one read-ahead
pull (the ≤ bufferSize hypothesis; beyond it the early-EOF data-loss path of
C1 can end the stream before the final-mode length check, so the bound is
essential).  The byte-flip half of the claim is false (see the counterexample
theorem): flipping the final byte can yield valid-looking padding and a
silent wrong answer. -/
theorem C5_truncation_detected (C : Cipher) (iv p : List Nat) (hiv : iv.length = C.bs)
    (hc8 : (padMsg C.bs p).length ≤ bufferSize) (n : Nat) (hn : n % C.bs ≠ 0)
    (hnlt : n < (padMsg C.bs p).length) (B fuel : Nat) (hfuel : 0 < fuel) :
    readToEnd C fuel
      (readerNew ((cbcEncB C iv (fullChunks C.bs (padMsg C.bs p))).1.flatten.take n) iv) B =
      .error (.codec .invalidLength) := by
  have hbs := C.bs_pos
  have hclen : (cbcEncB C iv (fullChunks C.bs (padMsg C.bs p))).1.flatten.length =
      (padMsg C.bs p).length := encFlatten_c_length C iv p hiv
  have htlen : ((cbcEncB C iv (fullChunks C.bs (padMsg C.bs p))).1.flatten.take n).length =
      n := by
    rw [List.length_take, hclen]
    omega
  have hn0 : n ≠ 0 := by
    intro h0
    rw [h0] at hn
    exact hn (Nat.zero_mod C.bs)
  apply readToEnd_first_badlen C _ 0 iv iv B fuel hfuel
  · intro h
    have h2 := congrArg List.length h
    rw [List.drop_zero, htlen] at h2
    simp only [List.length_nil] at h2
    exact hn0 h2
  · rw [List.drop_zero, htlen]
    exact le_trans (le_of_lt (lt_of_lt_of_le hnlt hc8)) le_rfl
  · rw [List.drop_zero, htlen]
    exact hn

theorem C5_truncation_detected_witness :
    readToEnd idCipher 1
      (readerNew ((cbcEncB idCipher [0, 0]
        (fullChunks idCipher.bs (padMsg idCipher.bs [5]))).1.flatten.take 1) [0, 0]) 4 =
      .error (.codec .invalidLength) :=
  C5_truncation_detected idCipher [0, 0] [5] (by decide) (by decide) 1 (by decide)
    (by decide) 4 1 (by decide)

/-- C5 counterexample: flipping the final byte of a writer-produced
ciphertext is not always detected.  The writer on empty plaintext emits the
pure-padding block [2, 2]; flipping its last byte to 1 yields [2, 1], which
decrypts without any codec error to the wrong plaintext [2]. -/
theorem C5_flip_undetected :
    writerFlush idCipher (writerNew [0, 0]) =
      .ok ⟨[2, 2], 1, ⟨[2, 2], [], [], true⟩, true⟩ ∧
    readToEnd idCipher 2 (readerNew [2, 1] [0, 0]) 4 = .ok [2] ∧
    ([2, 1] : List Nat) ≠ [2, 2] ∧ ([2] : List Nat) ≠ [] := by
  refine ⟨rfl, rfl, by decide, by decide⟩

end AesStream
